import Mathlib

/-!
Verification of the HelenOS VFS broker (`uspace/srv/vfs/vfs_ops.c`) against its
natural-language specification.

The C file `vfs_ops.c` is embedded directly.  Helpers that this file calls but
whose sources are not part of the repository snapshot (the path resolver
`vfs_lookup_internal` in `vfs_lookup.c`, `vfs_link_internal`, the node cache in
`vfs_node.c`, the descriptor table in `vfs_file.c`, and the flag constants from
`<ipc/vfs.h>`) are modelled from the specification; each such definition says so
in its doc comment.

Machine integers are modelled as `Nat`/`Int` with explicit `% 2^w` where
overflow matters.  C strings are `List Char` with NUL-terminator semantics:
reading index `i` of string `s` yields `charAt s i`, which is the NUL character
when `i` is past the end.
-/

namespace Vfs

/-- The status codes used by the broker (subset of HelenOS errno). -/
inductive Errno where
  | EOK | ENOENT | EBUSY | ENOMEM | EINVAL | EPERM | EBADF
  | EEXIST | ENOTSUP | EIO | EOVERFLOW
deriving DecidableEq, Repr

/-- Backend-stable identity of a node: `(fs_handle, service_id, index)`.
Equality is componentwise, as for C `vfs_triplet_t` compared by `memcmp`. -/
structure Triplet where
  fs_handle : Nat
  service_id : Nat
  index : Nat
deriving DecidableEq, Repr

/-- Node types distinguished by the broker (`vfs_node_type_t`). -/
inductive VfsNodeType where
  | directory | regular | other
deriving DecidableEq, Repr

/-! ## C strings -/

/-- The NUL terminator character. -/
def NUL : Char := Char.ofNat 0

/-- Reading a C string at an index: past the end we read the terminator. -/
def charAt (s : List Char) (i : Nat) : Char := s.getD i NUL

/-- The index at which the scanning loop of `shared_path` stops:
first position where the characters differ or both strings have ended.
Matches `while (a[res] == b[res] && a[res] != 0) res++;` for NUL-free
strings. -/
def firstDiff : List Char → List Char → Nat
  | a :: as, b :: bs => if a = b ∧ a ≠ NUL then firstDiff as bs + 1 else 0
  | _, _ => 0

/-- The backtracking loop of `shared_path`:
`res--; while (a[res] != '/') res--;` started from index `i`.
For the canonical inputs used by `vfs_rename` the character at index 0 is
`'/'`, so the C loop never underflows and agrees with this function. -/
def lastSlashAt (a : List Char) : Nat → Nat
  | 0 => 0
  | i + 1 => if charAt a (i + 1) = '/' then i + 1 else lastSlashAt a i

/-- `shared_path` from `vfs_ops.c`: length of the longest shared directory
portion of two paths. -/
def shared_path (a b : List Char) : Nat :=
  let res := firstDiff a b
  if charAt a res = charAt b res then res
  else lastSlashAt a (res - 1)

/-- Splitting a path string into its `'/'`-separated non-empty components. -/
def compsAcc : List Char → List Char → List String
  | [], acc => if acc = [] then [] else [String.mk acc.reverse]
  | c :: cs, acc =>
      if c = '/' then
        if acc = [] then compsAcc cs [] else String.mk acc.reverse :: compsAcc cs []
      else compsAcc cs (c :: acc)

/-- The components of a canonical path string. -/
def comps (s : List Char) : List String := compsAcc s []

/-- A path component is non-empty and contains no separator and no NUL. -/
def compOk (c : String) : Prop := c ≠ "" ∧ NUL ∉ c.data ∧ '/' ∉ c.data

instance (c : String) : Decidable (compOk c) := by
  unfold compOk; infer_instance

/-- Rendering a non-empty component list back into a canonical path string. -/
def renderPath : List String → List Char
  | [] => []
  | c :: cs => '/' :: (c.data ++ renderPath cs)

/-- A canonical absolute path as produced by `canonify`: either the root `"/"`
or `"/c1/.../cn"` with well-formed components. -/
def Canonical (s : List Char) : Prop :=
  (s = ['/'] ∧ comps s = []) ∨
  (s = renderPath (comps s) ∧ comps s ≠ [] ∧ ∀ c ∈ comps s, compOk c)

instance (s : List Char) : Decidable (Canonical s) := by
  unfold Canonical; infer_instance

/-! ### Basic string lemmas -/

theorem firstDiff_charAt_eq {a b : List Char} :
    ∀ i < firstDiff a b, charAt a i = charAt b i ∧ charAt a i ≠ NUL := by
  induction a generalizing b with
  | nil => intro i hi; simp [firstDiff] at hi
  | cons x xs ih =>
    intro i hi
    cases b with
    | nil => simp [firstDiff] at hi
    | cons y ys =>
      by_cases hxy : x = y ∧ x ≠ NUL
      · simp only [firstDiff, if_pos hxy] at hi
        cases i with
        | zero => simpa [charAt] using hxy
        | succ j =>
          have := ih (b := ys) j (by omega)
          simpa [charAt] using this
      · simp [firstDiff, if_neg hxy] at hi

theorem charAt_ne_NUL_lt_length {s : List Char} {i : Nat} (h : charAt s i ≠ NUL) :
    i < s.length := by
  by_contra hlen
  have : charAt s i = NUL := by
    unfold charAt
    exact List.getD_eq_default _ _ (by omega)
  exact h this

theorem lastSlashAt_le (a : List Char) (i : Nat) : lastSlashAt a i ≤ i := by
  induction i with
  | zero => simp [lastSlashAt]
  | succ j ih =>
    unfold lastSlashAt
    split
    · omega
    · omega

theorem lastSlashAt_slash {a : List Char} (h0 : charAt a 0 = '/') (i : Nat) :
    charAt a (lastSlashAt a i) = '/' := by
  induction i with
  | zero => simpa [lastSlashAt] using h0
  | succ j ih =>
    unfold lastSlashAt
    split
    · assumption
    · exact ih

/-! ## The namespace graph

Modelled from the spec: the path resolver (`vfs_lookup_internal`,
`vfs_link_internal` — their source file is not part of the snapshot) walks a
graph of directory entries.  An `Edge` is one directory entry: under directory
node `parent`, name `name` denotes node `child`.  "UNLINK: remove the terminal
name from its parent"; "LINK old's triplet at the new name". -/

structure Edge where
  parent : Triplet
  name : String
  child : Triplet
deriving DecidableEq, Repr

/-- A path as a list of components. -/
abbrev Path := List String

/-- Directory-entry lookup of one component under a parent node. -/
def findEdge : List Edge → Triplet → String → Option Triplet
  | [], _, _ => none
  | e :: es, p, n => if e.parent = p ∧ e.name = n then some e.child else findEdge es p n

/-- Resolving a component path from a base node by following directory
entries. -/
def walk (ns : List Edge) (base : Triplet) : Path → Option Triplet
  | [] => some base
  | c :: cs =>
    match findEdge ns base c with
    | some t => walk ns t cs
    | none => none

/-- The `(parent, name)` keys of a namespace. -/
def edgeKeys (ns : List Edge) : List (Triplet × String) := ns.map fun e => (e.parent, e.name)

/-- The child nodes of a namespace. -/
def edgeTgts (ns : List Edge) : List Triplet := ns.map Edge.child

/-- Removing the directory entry with a given key. -/
def eraseKey (ns : List Edge) (p : Triplet) (n : String) : List Edge :=
  ns.filter fun e => decide ¬(e.parent = p ∧ e.name = n)

/-- Well-formedness of the broker's namespace as seen from `base`: each
directory holds at most one entry per name, each node has at most one name
(no hard links to directories), and the base is not itself an entry.  These
are the standard single-parent invariants of a file-system namespace. -/
def WF (ns : List Edge) (base : Triplet) : Prop :=
  (edgeKeys ns).Nodup ∧ (edgeTgts ns).Nodup ∧ base ∉ edgeTgts ns

instance (ns : List Edge) (base : Triplet) : Decidable (WF ns base) := by
  unfold WF; infer_instance

/-! ### findEdge lemmas -/

theorem findEdge_some_mem {ns : List Edge} {p : Triplet} {n : String} {t : Triplet}
    (h : findEdge ns p n = some t) : Edge.mk p n t ∈ ns := by
  induction ns with
  | nil => simp [findEdge] at h
  | cons e es ih =>
    unfold findEdge at h
    split at h
    · rename_i hc
      obtain ⟨h1, h2⟩ := hc
      cases h
      apply List.mem_cons.mpr
      left
      cases e
      simp_all
    · right; exact ih h

theorem findEdge_none_iff {ns : List Edge} {p : Triplet} {n : String} :
    findEdge ns p n = none ↔ (p, n) ∉ edgeKeys ns := by
  induction ns with
  | nil => simp [findEdge, edgeKeys]
  | cons e es ih =>
    unfold findEdge
    constructor
    · intro h
      split at h
      · cases h
      · rename_i hc
        simp only [edgeKeys, List.map_cons, List.mem_cons]
        rintro (h1 | h1)
        · apply hc; constructor
          · exact congrArg Prod.fst h1.symm
          · exact congrArg Prod.snd h1.symm
        · exact (ih.mp h) (by simpa [edgeKeys] using h1)
    · intro h
      split
      · rename_i hc
        exfalso; apply h
        simp [edgeKeys, hc.1, hc.2]
      · apply ih.mpr
        intro hmem
        apply h
        simp only [edgeKeys, List.map_cons, List.mem_cons]
        right
        simpa [edgeKeys] using hmem

theorem mem_findEdge_of_nodup {ns : List Edge} {e : Edge}
    (hk : (edgeKeys ns).Nodup) (hm : e ∈ ns) :
    findEdge ns e.parent e.name = some e.child := by
  induction ns with
  | nil => cases hm
  | cons f fs ih =>
    rcases List.mem_cons.mp hm with h1 | h1
    · subst h1
      simp [findEdge]
    · have hk' : (edgeKeys fs).Nodup := (List.nodup_cons.mp hk).2
      have hne : ¬(f.parent = e.parent ∧ f.name = e.name) := by
        rintro ⟨hp, hn⟩
        have : (f.parent, f.name) ∈ edgeKeys fs := by
          rw [hp, hn]
          exact List.mem_map.mpr ⟨e, h1, rfl⟩
        exact (List.nodup_cons.mp hk).1 this
      unfold findEdge
      rw [if_neg hne]
      exact ih hk' h1

/-- In a namespace whose targets are distinct, two entries with the same
child are the same entry. -/
theorem tgt_inj {ns : List Edge} (ht : (edgeTgts ns).Nodup)
    {e f : Edge} (he : e ∈ ns) (hf : f ∈ ns) (hc : e.child = f.child) : e = f := by
  induction ns with
  | nil => cases he
  | cons g gs ih =>
    have ht' : (edgeTgts gs).Nodup := (List.nodup_cons.mp ht).2
    have hg : g.child ∉ edgeTgts gs := by
      have := (List.nodup_cons.mp ht).1
      simpa [edgeTgts] using this
    rcases List.mem_cons.mp he with h1 | h1 <;> rcases List.mem_cons.mp hf with h2 | h2
    · rw [h1, h2]
    · exfalso; apply hg; rw [← h1, hc]; exact List.mem_map.mpr ⟨f, h2, rfl⟩
    · exfalso; apply hg; rw [← h2, ← hc]; exact List.mem_map.mpr ⟨e, h1, rfl⟩
    · exact ih ht' h1 h2

/-! ### walk lemmas -/

theorem walk_append (ns : List Edge) (base : Triplet) (p q : Path) :
    walk ns base (p ++ q) = (walk ns base p).bind fun t => walk ns t q := by
  induction p generalizing base with
  | nil => simp [walk]
  | cons c cs ih =>
    simp only [List.cons_append, walk]
    cases findEdge ns base c with
    | none => simp
    | some t => simpa using ih t

theorem walk_singleton (ns : List Edge) (s : Triplet) (n : String) :
    walk ns s [n] = findEdge ns s n := by
  unfold walk
  cases findEdge ns s n <;> simp [walk]

theorem walk_concat {ns : List Edge} {base : Triplet} {p : Path} {n : String} {t : Triplet} :
    walk ns base (p ++ [n]) = some t ↔
      ∃ s, walk ns base p = some s ∧ findEdge ns s n = some t := by
  rw [walk_append]
  cases hw : walk ns base p with
  | none => simp
  | some s => simp [walk_singleton]

/-- A prefix of a successful walk succeeds. -/
theorem walk_take {ns : List Edge} {base : Triplet} {p : Path} {t : Triplet}
    (h : walk ns base p = some t) (k : Nat) :
    ∃ y, walk ns base (p.take k) = some y := by
  have happ := walk_append ns base (p.take k) (p.drop k)
  rw [List.take_append_drop, h] at happ
  cases hw : walk ns base (p.take k) with
  | none => rw [hw] at happ; simp at happ
  | some y => exact ⟨y, rfl⟩

theorem take_succ_get {α : Type} (p : List α) {k : Nat} (hk : k < p.length) :
    p.take (k + 1) = p.take k ++ [p.get ⟨k, hk⟩] := by
  rw [List.take_succ]
  simp [List.getElem?_eq_getElem hk, List.get_eq_getElem]

/-- A step in the middle of a successful walk. -/
theorem walk_step {ns : List Edge} {base : Triplet} {p : Path} {t : Triplet}
    (h : walk ns base p = some t) {k : Nat} (hk : k < p.length) :
    ∃ y z, walk ns base (p.take k) = some y ∧
      findEdge ns y (p.get ⟨k, hk⟩) = some z ∧
      walk ns base (p.take (k + 1)) = some z := by
  obtain ⟨z, hz⟩ := walk_take h (k + 1)
  obtain ⟨y, hy⟩ := walk_take h k
  have hz' := hz
  rw [take_succ_get p hk] at hz'
  obtain ⟨y', hy', hfe⟩ := walk_concat.mp hz'
  have : y = y' := by rw [hy] at hy'; exact Option.some.inj hy'
  subst this
  exact ⟨y, z, hy, hfe, hz⟩

/-- A successful walk in a namespace included in a larger one with distinct
keys also succeeds there, with the same result. -/
theorem walk_sub {ns' ns : List Edge} (hsub : ∀ e ∈ ns', e ∈ ns)
    (hk : (edgeKeys ns).Nodup) {base : Triplet} {p : Path} {t : Triplet}
    (h : walk ns' base p = some t) : walk ns base p = some t := by
  induction p generalizing base with
  | nil => simpa [walk] using h
  | cons c cs ih =>
    unfold walk at h ⊢
    cases hfe : findEdge ns' base c with
    | none => rw [hfe] at h; cases h
    | some u =>
      rw [hfe] at h
      have hmem : Edge.mk base c u ∈ ns := hsub _ (findEdge_some_mem hfe)
      have : findEdge ns base c = some u := mem_findEdge_of_nodup hk hmem
      rw [this]
      exact ih h

/-- Path uniqueness in a well-formed namespace: from the base, a node is
reached by at most one path. -/
theorem walk_unique {ns : List Edge} {base : Triplet} (hwf : WF ns base)
    {p q : Path} {t : Triplet}
    (hp : walk ns base p = some t) (hq : walk ns base q = some t) : p = q := by
  obtain ⟨-, htgt, hbase⟩ := hwf
  induction p using List.reverseRecOn generalizing q t with
  | nil =>
    simp only [walk] at hp
    cases hp
    induction q using List.reverseRecOn with
    | nil => rfl
    | append_singleton q' n _ =>
      exfalso
      obtain ⟨s, -, hfe⟩ := walk_concat.mp hq
      exact hbase (List.mem_map.mpr ⟨_, findEdge_some_mem hfe, rfl⟩)
  | append_singleton p' n ih =>
    obtain ⟨s, hs, hfe⟩ := walk_concat.mp hp
    induction q using List.reverseRecOn with
    | nil =>
      exfalso
      simp only [walk] at hq
      cases hq
      exact hbase (List.mem_map.mpr ⟨_, findEdge_some_mem hfe, rfl⟩)
    | append_singleton q' m _ =>
      obtain ⟨s', hs', hfe'⟩ := walk_concat.mp hq
      have heq : Edge.mk s n t = Edge.mk s' m t :=
        tgt_inj htgt (findEdge_some_mem hfe) (findEdge_some_mem hfe') rfl
      have hps : s = s' := congrArg Edge.parent heq
      have hnm : n = m := congrArg Edge.name heq
      subst hps hnm
      rw [ih hs hs']

/-! ### eraseKey lemmas -/

theorem mem_eraseKey {ns : List Edge} {p : Triplet} {n : String} {e : Edge} :
    e ∈ eraseKey ns p n ↔ e ∈ ns ∧ ¬(e.parent = p ∧ e.name = n) := by
  simp only [eraseKey, List.mem_filter, decide_eq_true_eq]

theorem eraseKey_sublist (ns : List Edge) (p : Triplet) (n : String) :
    (eraseKey ns p n).Sublist ns := List.filter_sublist ns

theorem edgeKeys_sublist {ns' ns : List Edge} (h : ns'.Sublist ns) :
    (edgeKeys ns').Sublist (edgeKeys ns) := h.map _

theorem edgeTgts_sublist {ns' ns : List Edge} (h : ns'.Sublist ns) :
    (edgeTgts ns').Sublist (edgeTgts ns) := h.map _

/-- `WF` descends to sub-namespaces. -/
theorem WF_sublist {ns' ns : List Edge} {base : Triplet} (h : ns'.Sublist ns)
    (hwf : WF ns base) : WF ns' base :=
  ⟨(edgeKeys_sublist h).nodup hwf.1, (edgeTgts_sublist h).nodup hwf.2.1,
    fun hm => hwf.2.2 ((edgeTgts_sublist h).mem hm)⟩

theorem findEdge_eraseKey_self (ns : List Edge) (p : Triplet) (n : String) :
    findEdge (eraseKey ns p n) p n = none := by
  apply findEdge_none_iff.mpr
  intro h
  obtain ⟨e, he, hkey⟩ := List.mem_map.mp h
  have := mem_eraseKey.mp he
  apply this.2
  exact ⟨congrArg Prod.fst hkey, congrArg Prod.snd hkey⟩

theorem findEdge_eraseKey_of_ne (ns : List Edge) {p p' : Triplet} {n n' : String}
    (h : ¬(p' = p ∧ n' = n)) :
    findEdge (eraseKey ns p n) p' n' = findEdge ns p' n' := by
  induction ns with
  | nil => simp [eraseKey, findEdge]
  | cons e es ih =>
    by_cases hc : e.parent = p ∧ e.name = n
    · have h1 : eraseKey (e :: es) p n = eraseKey es p n := by
        simp [eraseKey, hc.1, hc.2]
      have h2 : ¬(e.parent = p' ∧ e.name = n') := by
        rintro ⟨h3, h4⟩
        exact h ⟨h3 ▸ hc.1, h4 ▸ hc.2⟩
      have h3 : findEdge (e :: es) p' n' = findEdge es p' n' := by
        simp only [findEdge]
        rw [if_neg h2]
      rw [h1, ih, h3]
    · have h1 : eraseKey (e :: es) p n = e :: eraseKey es p n := by
        simp only [eraseKey, List.filter_cons]
        rw [if_pos (decide_eq_true hc)]
      rw [h1]
      unfold findEdge
      split
      · rfl
      · exact ih

/-- The child of the erased entry is no longer anyone's child. -/
theorem child_not_mem_eraseKey {ns : List Edge} {p : Triplet} {n : String} {t : Triplet}
    (ht : (edgeTgts ns).Nodup) (hfe : findEdge ns p n = some t) :
    t ∉ edgeTgts (eraseKey ns p n) := by
  intro hmem
  obtain ⟨f, hf, hfc⟩ := List.mem_map.mp hmem
  have hf' := mem_eraseKey.mp hf
  have : f = Edge.mk p n t := tgt_inj ht hf'.1 (findEdge_some_mem hfe) hfc
  apply hf'.2
  rw [this]
  exact ⟨rfl, rfl⟩

theorem findEdge_cons_self (e : Edge) (ns : List Edge) :
    findEdge (e :: ns) e.parent e.name = some e.child := by
  simp [findEdge]

theorem findEdge_cons_of_ne {e : Edge} {x : Triplet} {c : String} (ns : List Edge)
    (h : ¬(e.parent = x ∧ e.name = c)) :
    findEdge (e :: ns) x c = findEdge ns x c := by
  simp only [findEdge]
  rw [if_neg h]

/-- Walks only depend on the entry-lookup function of the namespace. -/
theorem walk_congr {ns1 ns2 : List Edge}
    (h : ∀ x c, findEdge ns1 x c = findEdge ns2 x c) (b : Triplet) (P : Path) :
    walk ns1 b P = walk ns2 b P := by
  induction P generalizing b with
  | nil => rfl
  | cons c cs ih =>
    unfold walk
    rw [h b c]
    cases findEdge ns2 b c with
    | none => rfl
    | some u => exact ih u

/-- Re-inserting an existing entry after erasing its key leaves entry lookup
unchanged. -/
theorem findEdge_reinsert {ns : List Edge} {p : Triplet} {n : String} {t : Triplet}
    (hk : (edgeKeys ns).Nodup) (hfe : findEdge ns p n = some t) (x : Triplet) (c : String) :
    findEdge (Edge.mk p n t :: eraseKey ns p n) x c = findEdge ns x c := by
  by_cases hx : p = x ∧ n = c
  · obtain ⟨hx1, hx2⟩ := hx
    subst hx1 hx2
    rw [findEdge_cons_self ⟨p, n, t⟩ (eraseKey ns p n)]
    exact hfe.symm
  · rw [findEdge_cons_of_ne _ hx]
    exact findEdge_eraseKey_of_ne ns fun hh => hx ⟨hh.1.symm, hh.2.symm⟩

/-- Removing an entry that a successful walk never queries leaves the walk
unchanged. -/
theorem walk_eraseKey_of_ne {ns : List Edge} {p : Triplet} {n : String} {b : Triplet}
    {P : Path}
    (hcond : ∀ k, (hk : k < P.length) → ∀ y, walk ns b (P.take k) = some y →
      ¬(y = p ∧ P.get ⟨k, hk⟩ = n)) :
    walk (eraseKey ns p n) b P = walk ns b P := by
  induction P generalizing b with
  | nil => rfl
  | cons c cs ih =>
    have h0 : ¬(b = p ∧ c = n) := by
      have := hcond 0 (by simp) b (by simp [walk])
      simpa using this
    unfold walk
    rw [findEdge_eraseKey_of_ne ns h0]
    cases hfe : findEdge ns b c with
    | none => rfl
    | some u =>
      apply ih
      intro k hk y hy
      have hk' : k + 1 < (c :: cs).length := by simpa using Nat.succ_lt_succ hk
      have htake : (c :: cs).take (k + 1) = c :: cs.take k := by simp
      have hwalk : walk ns b ((c :: cs).take (k + 1)) = some y := by
        rw [htake]
        unfold walk
        rw [hfe]
        exact hy
      have := hcond (k + 1) hk' y hwalk
      simpa using this

/-- Adding an entry that a successful walk never queries leaves the walk
unchanged. -/
theorem walk_cons_of_ne {ns : List Edge} {e : Edge} {b : Triplet} {P : Path}
    (hcond : ∀ k, (hk : k < P.length) → ∀ y, walk ns b (P.take k) = some y →
      ¬(y = e.parent ∧ P.get ⟨k, hk⟩ = e.name)) :
    walk (e :: ns) b P = walk ns b P := by
  induction P generalizing b with
  | nil => rfl
  | cons c cs ih =>
    have h0 : ¬(b = e.parent ∧ c = e.name) := by
      have := hcond 0 (by simp) b (by simp [walk])
      simpa using this
    unfold walk
    rw [findEdge_cons_of_ne ns fun hh => h0 ⟨hh.1.symm, hh.2.symm⟩]
    cases hfe : findEdge ns b c with
    | none => rfl
    | some u =>
      apply ih
      intro k hk y hy
      have hk' : k + 1 < (c :: cs).length := by simpa using Nat.succ_lt_succ hk
      have hwalk : walk ns b ((c :: cs).take (k + 1)) = some y := by
        have htake : (c :: cs).take (k + 1) = c :: cs.take k := by simp
        rw [htake]
        unfold walk
        rw [hfe]
        exact hy
      have := hcond (k + 1) hk' y hwalk
      simpa using this

/-- A successful walk in `e :: ns` either avoids `e` (and is a walk of `ns`)
or reaches `e.child` along one of its proper prefixes. -/
theorem walk_cons_split {ns : List Edge} {e : Edge} {b : Triplet} {P : Path} {t : Triplet}
    (h : walk (e :: ns) b P = some t) :
    walk ns b P = some t ∨
      ∃ k, k < P.length ∧ walk (e :: ns) b (P.take (k + 1)) = some e.child := by
  induction P generalizing b with
  | nil => left; exact h
  | cons c cs ih =>
    by_cases hc : e.parent = b ∧ e.name = c
    · right
      refine ⟨0, by simp, ?_⟩
      have : findEdge (e :: ns) b c = some e.child := by
        simp [findEdge, hc.1, hc.2]
      simp [walk, this]
    · unfold walk at h
      rw [findEdge_cons_of_ne ns hc] at h
      cases hfe : findEdge ns b c with
      | none => rw [hfe] at h; cases h
      | some u =>
        rw [hfe] at h
        rcases ih h with h1 | ⟨k, hk, h2⟩
        · left
          unfold walk
          rw [hfe]
          exact h1
        · right
          refine ⟨k + 1, by simpa using Nat.succ_lt_succ hk, ?_⟩
          have htake : (c :: cs).take (k + 1 + 1) = c :: cs.take (k + 1) := by simp
          rw [htake]
          unfold walk
          rw [findEdge_cons_of_ne ns hc, hfe]
          exact h2

/-! ### Component-splitting lemmas -/

theorem compsAcc_split (v : List Char) :
    ∀ (u : List Char) (acc : List Char),
      compsAcc (u ++ '/' :: v) acc = compsAcc u acc ++ compsAcc v [] := by
  intro u
  induction u with
  | nil =>
    intro acc
    by_cases hacc : acc = []
    · simp [compsAcc, hacc]
    · simp [compsAcc, hacc]
  | cons c cs ih =>
    intro acc
    by_cases hc : c = '/'
    · by_cases hacc : acc = []
      · simp [compsAcc, hc, hacc, ih]
      · simp [compsAcc, hc, hacc, ih]
    · simp [compsAcc, hc, ih]

theorem comps_split {s : List Char} {i : Nat} (h : charAt s i = '/') :
    comps s = comps (s.take i) ++ comps (s.drop i) := by
  have hlt : i < s.length := charAt_ne_NUL_lt_length (by rw [h]; decide)
  have hdrop : s.drop i = '/' :: s.drop (i + 1) := by
    rw [List.drop_eq_getElem_cons hlt]
    congr 1
    have : s[i] = charAt s i := by
      unfold charAt
      rw [List.getD_eq_getElem _ _ hlt]
    rw [this, h]
  have hsplit : s = s.take i ++ '/' :: s.drop (i + 1) := by
    conv_lhs => rw [← List.take_append_drop i s]
    rw [hdrop]
  have h1 : comps s = comps (s.take i) ++ compsAcc (s.drop (i + 1)) [] := by
    conv_lhs => rw [hsplit]
    exact compsAcc_split _ _ _
  have h2 : comps (s.drop i) = compsAcc (s.drop (i + 1)) [] := by
    rw [hdrop]
    simp [comps, compsAcc]
  rw [h1, h2]

theorem firstDiff_nil_left (b : List Char) : firstDiff [] b = 0 := by
  cases b <;> rfl

theorem firstDiff_nil_right (a : List Char) : firstDiff a [] = 0 := by
  cases a <;> rfl

theorem take_firstDiff_eq : ∀ {a b : List Char} {i : Nat}, i ≤ firstDiff a b →
    a.take i = b.take i := by
  intro a
  induction a with
  | nil =>
    intro b i hi
    rw [firstDiff_nil_left] at hi
    have hz : i = 0 := by omega
    subst hz; simp
  | cons x xs ih =>
    intro b i hi
    cases b with
    | nil =>
      rw [firstDiff_nil_right] at hi
      have hz : i = 0 := by omega
      subst hz; simp
    | cons y ys =>
      by_cases hxy : x = y ∧ x ≠ NUL
      · cases i with
        | zero => simp
        | succ j =>
          simp only [firstDiff, if_pos hxy] at hi
          simp only [List.take_succ_cons]
          rw [hxy.1, ih (b := ys) (by omega)]
      · simp only [firstDiff, if_neg hxy] at hi
        have hz : i = 0 := by omega
        subst hz; simp

/-- The exit condition of the scanning loop of `shared_path`. -/
theorem firstDiff_stop (a b : List Char) :
    ¬(charAt a (firstDiff a b) = charAt b (firstDiff a b) ∧
      charAt a (firstDiff a b) ≠ NUL) := by
  induction a generalizing b with
  | nil => simp [firstDiff, charAt]
  | cons x xs ih =>
    cases b with
    | nil => simp [firstDiff, charAt]
    | cons y ys =>
      by_cases hxy : x = y ∧ x ≠ NUL
      · simp only [firstDiff, if_pos hxy]
        simpa [charAt] using ih ys
      · simpa [firstDiff, if_neg hxy, charAt] using hxy

theorem firstDiff_pos {a b : List Char}
    (h : charAt a 0 = charAt b 0) (hn : charAt a 0 ≠ NUL) : 1 ≤ firstDiff a b := by
  cases a with
  | nil => exact absurd (show charAt ([] : List Char) 0 = NUL from rfl) hn
  | cons x xs =>
    cases b with
    | nil =>
      exact absurd (h.trans (show charAt ([] : List Char) 0 = NUL from rfl)) hn
    | cons y ys =>
      have : x = y ∧ x ≠ NUL := by
        constructor
        · simpa [charAt] using h
        · simpa [charAt] using hn
      simp [firstDiff, if_pos this]

/-! ### Canonical-path lemmas -/

theorem canonical_nonempty {s : List Char} (h : Canonical s) : s ≠ [] := by
  intro hs
  subst hs
  rcases h with ⟨h1, -⟩ | ⟨-, h2, -⟩
  · cases h1
  · exact h2 rfl

theorem renderPath_head {c : String} {cs : List String} :
    renderPath (c :: cs) = '/' :: (c.data ++ renderPath cs) := rfl

theorem canonical_head {s : List Char} (h : Canonical s) : charAt s 0 = '/' := by
  rcases h with ⟨h1, -⟩ | ⟨h1, h2, -⟩
  · rw [h1]; rfl
  · cases hc : comps s with
    | nil => exact absurd hc h2
    | cons c cs =>
      rw [h1, hc, renderPath_head]
      rfl

theorem renderPath_no_NUL {cs : List String} (h : ∀ c ∈ cs, compOk c) :
    NUL ∉ renderPath cs := by
  induction cs with
  | nil => simp [renderPath]
  | cons c cs ih =>
    rw [renderPath_head]
    intro hmem
    rcases List.mem_cons.mp hmem with h1 | h1
    · exact absurd h1.symm (by decide)
    · rcases List.mem_append.mp h1 with h2 | h2
      · exact (h c (by simp)).2.1 h2
      · exact ih (fun d hd => h d (by simp [hd])) h2

theorem canonical_no_NUL {s : List Char} (h : Canonical s) : NUL ∉ s := by
  rcases h with ⟨h1, -⟩ | ⟨h1, -, h3⟩
  · rw [h1]; decide
  · rw [h1]; exact renderPath_no_NUL h3

theorem canonical_inj {a b : List Char} (ha : Canonical a) (hb : Canonical b)
    (h : comps a = comps b) : a = b := by
  rcases ha with ⟨ha1, ha2⟩ | ⟨ha1, ha2, -⟩ <;> rcases hb with ⟨hb1, hb2⟩ | ⟨hb1, hb2, -⟩
  · rw [ha1, hb1]
  · exact absurd (h ▸ ha2) hb2
  · exact absurd (h.symm ▸ hb2) ha2
  · rw [ha1, hb1, h]

theorem firstDiff_self {a : List Char} (h : NUL ∉ a) : firstDiff a a = a.length := by
  induction a with
  | nil => rfl
  | cons x xs ih =>
    have hx : x ≠ NUL := fun hxx => h (by simp [hxx])
    have hstep : firstDiff (x :: xs) (x :: xs) = firstDiff xs xs + 1 := by
      simp [firstDiff, hx]
    rw [hstep, ih (fun hm => h (by simp [hm]))]
    rfl

theorem shared_path_self {a : List Char} (h : NUL ∉ a) :
    charAt a (shared_path a a) = NUL := by
  unfold shared_path
  rw [firstDiff_self h]
  have : charAt a a.length = NUL := by
    unfold charAt
    exact List.getD_eq_default _ _ (by omega)
  simp [this]

/-- The non-`EINVAL` branch of the shared-portion computation: both paths
carry `'/'` at the shared index, and they agree up to it (this is the pair
of `assert`s in `vfs_rename_internal`). -/
theorem shared_path_guard {a b : List Char} (ha : Canonical a) (hb : Canonical b)
    (hga : charAt a (shared_path a b) ≠ NUL) :
    charAt a (shared_path a b) = '/' ∧ charAt b (shared_path a b) = '/' ∧
      shared_path a b < firstDiff a b ∧
      a.take (shared_path a b) = b.take (shared_path a b) := by
  have hstop := firstDiff_stop a b
  have hpos : 1 ≤ firstDiff a b :=
    firstDiff_pos ((canonical_head ha).trans (canonical_head hb).symm) (by
      rw [canonical_head ha]; decide)
  unfold shared_path at hga ⊢
  by_cases heq : charAt a (firstDiff a b) = charAt b (firstDiff a b)
  · exfalso
    rw [if_pos heq] at hga
    exact hstop ⟨heq, hga⟩
  · rw [if_neg heq] at hga ⊢
    set j := lastSlashAt a (firstDiff a b - 1) with hj
    have hjle : j ≤ firstDiff a b - 1 := lastSlashAt_le _ _
    have hjlt : j < firstDiff a b := by omega
    have hsl : charAt a j = '/' := lastSlashAt_slash (canonical_head ha) _
    have hab := firstDiff_charAt_eq (a := a) (b := b) j hjlt
    refine ⟨hsl, by rw [← hab.1]; exact hsl, hjlt, take_firstDiff_eq (by omega)⟩

/-! ## The path resolver

Modelled from the spec: lookup flags (§4.4); the concrete bit values come from
`<ipc/vfs.h>`, which is not in the snapshot — only their distinctness
matters. -/

def L_FILE : Nat := 1
def L_DIRECTORY : Nat := 2
def L_CREATE : Nat := 4
def L_EXCLUSIVE : Nat := 8
def L_UNLINK : Nat := 16
def L_MP : Nat := 32
def L_DISABLE_MOUNTS : Nat := 64

/-- Modelled from the spec: the behaviour of the backend file-system servers
during resolver operations.  `typeOf` is the node type the backend reports;
`unlinkErr`/`linkErr` inject backend-side failures (`none` = the backend
performs the operation); `fresh` is the index the backend assigns on
`L_CREATE`. -/
structure Backend where
  typeOf : Triplet → VfsNodeType
  sizeOf : Triplet → Nat
  unlinkErr : Triplet → String → Option Errno
  linkErr : Triplet → String → Triplet → Option Errno
  fresh : Triplet → String → Triplet

/-- Modelled from the spec: `vfs_lookup_internal` (its file `vfs_lookup.c` is
not in the snapshot).  "Takes `(base_triplet, path, flags)` and yields a lookup
result or an error."  With `L_UNLINK` it removes the terminal name from its
parent; with `L_CREATE` it creates the terminal name if missing
(`L_EXCLUSIVE`: fail with `EEXIST` if present); `L_DIRECTORY`/`L_FILE`
constrain the terminal's type.  `L_MP` and `L_DISABLE_MOUNTS` only affect
mount-point crossing, which this single-backend model does not have.
Returns the result triplet and the updated namespace. -/
def vfs_lookup_internal (bk : Backend) (ns : List Edge) (base : Triplet)
    (p : Path) (flags : Nat) : Except Errno (Triplet × List Edge) :=
  if flags &&& L_UNLINK ≠ 0 then
    match p.getLast? with
    | none => .error .ENOENT
    | some last =>
      match walk ns base p.dropLast with
      | none => .error .ENOENT
      | some par =>
        match findEdge ns par last with
        | none => .error .ENOENT
        | some t =>
          if flags &&& L_DIRECTORY ≠ 0 ∧ bk.typeOf t ≠ .directory then .error .EINVAL
          else if flags &&& L_FILE ≠ 0 ∧ bk.typeOf t ≠ .regular then .error .EINVAL
          else
            match bk.unlinkErr par last with
            | some e => .error e
            | none => .ok (t, eraseKey ns par last)
  else
    match walk ns base p with
    | some t =>
      if flags &&& L_CREATE ≠ 0 ∧ flags &&& L_EXCLUSIVE ≠ 0 then .error .EEXIST
      else if flags &&& L_DIRECTORY ≠ 0 ∧ bk.typeOf t ≠ .directory then .error .EINVAL
      else if flags &&& L_FILE ≠ 0 ∧ bk.typeOf t ≠ .regular then .error .EINVAL
      else .ok (t, ns)
    | none =>
      if flags &&& L_CREATE ≠ 0 then
        match p.getLast? with
        | none => .error .ENOENT
        | some last =>
          match walk ns base p.dropLast with
          | none => .error .ENOENT
          | some par =>
            match findEdge ns par last with
            | some _ => .error Errno.EIO
            | none =>
              .ok (bk.fresh par last, Edge.mk par last (bk.fresh par last) :: ns)
      else .error .ENOENT

/-- Modelled from the spec: `vfs_link_internal` — "`LINK` old's triplet at the
`new` name".  Resolves the parent of the terminal name and installs the entry;
fails if the name already exists or the backend refuses. -/
def vfs_link_internal (bk : Backend) (ns : List Edge) (base : Triplet)
    (p : Path) (t : Triplet) : Except Errno (List Edge) :=
  match p.getLast? with
  | none => .error .ENOENT
  | some last =>
    match walk ns base p.dropLast with
    | none => .error .ENOENT
    | some par =>
      match findEdge ns par last with
      | some _ => .error .EEXIST
      | none =>
        match bk.linkErr par last t with
        | some e => .error e
        | none => .ok (Edge.mk par last t :: ns)

/-- A compensating relink in `vfs_rename_internal`: the return code of
`vfs_link_internal` is ignored by the C code. -/
def relink (bk : Backend) (ns : List Edge) (base : Triplet) (p : Path) (t : Triplet) :
    List Edge :=
  match vfs_link_internal bk ns base p t with
  | .ok ns' => ns'
  | .error _ => ns

/-- The compensating relink of the displaced original `new` entry, when one
was unlinked in step 1 (`if (orig_unlinked) vfs_link_internal(base, new,
&new_lr_orig.triplet)` in the C code, return value ignored). -/
def relinkOrig (bk : Backend) (m : List Edge) (b : Triplet) (newP : Path) :
    Option Triplet → List Edge
  | some t => relink bk m b newP t
  | none => m

/-- Steps 2 and 3 of `vfs_rename_internal` (after the lookup-unlink of the
`new` path): unlink `old`, link `old`'s triplet at `new`, with the
compensating relinks of the C code.  `orig` is the saved triplet of the
displaced `new` entry, if any. -/
def renameSteps23 (bk : Backend) (ns1 : List Edge) (b : Triplet)
    (oldP newP : Path) (orig : Option Triplet) : Errno × List Edge :=
  match vfs_lookup_internal bk ns1 b oldP (L_UNLINK ||| L_DISABLE_MOUNTS) with
  | .error e => (e, relinkOrig bk ns1 b newP orig)
  | .ok (tOld, ns2) =>
    match vfs_link_internal bk ns2 b newP tOld with
    | .error e => (e, relinkOrig bk (relink bk ns2 b oldP tOld) b newP orig)
    | .ok ns3 => (.EOK, ns3)

/-- Step 1 of `vfs_rename_internal` and its continuation: try to
lookup-unlink the `new` path (tolerating `ENOENT`, which means `new` did not
exist), then run steps 2 and 3. -/
def renameSteps123 (bk : Backend) (ns : List Edge) (b : Triplet)
    (oldP newP : Path) : Errno × List Edge :=
  match vfs_lookup_internal bk ns b newP (L_UNLINK ||| L_DISABLE_MOUNTS) with
  | .ok (tNew, ns1) => renameSteps23 bk ns1 b oldP newP (some tNew)
  | .error e =>
    if e = .ENOENT then renameSteps23 bk ns b oldP newP none
    else (e, ns)

/-- `vfs_rename_internal` from `vfs_ops.c`.  The input strings are the
canonicalised paths; the result is the status code together with the final
namespace.  The `vfs_node_get`/`vfs_node_put` pair on the displaced `new`
triplet does not change the namespace and is treated in the node-cache
models. -/
def vfs_rename_internal (bk : Backend) (ns : List Edge) (base : Triplet)
    (old new : List Char) : Errno × List Edge :=
  let shared := shared_path old new
  if charAt old shared = NUL ∨ charAt new shared = NUL then (.EINVAL, ns)
  else
    let base? : Except Errno Triplet :=
      if shared ≠ 0 then
        match vfs_lookup_internal bk ns base (comps (old.take shared)) L_DIRECTORY with
        | .ok (t, _) => .ok t
        | .error e => .error e
      else .ok base
    match base? with
    | .error e => (e, ns)
    | .ok b => renameSteps123 bk ns b (comps (old.drop shared)) (comps (new.drop shared))

/-- The resolver call made with the unlink flags of rename, in closed form. -/
theorem lookup_unlink_eq (bk : Backend) (ns : List Edge) (b : Triplet) (p : Path) :
    vfs_lookup_internal bk ns b p (L_UNLINK ||| L_DISABLE_MOUNTS) =
      match p.getLast? with
      | none => .error .ENOENT
      | some last =>
        match walk ns b p.dropLast with
        | none => .error .ENOENT
        | some par =>
          match findEdge ns par last with
          | none => .error .ENOENT
          | some t =>
            match bk.unlinkErr par last with
            | some e => .error e
            | none => .ok (t, eraseKey ns par last) := by
  unfold vfs_lookup_internal
  rw [if_pos (by decide)]
  cases p.getLast? with
  | none => rfl
  | some last =>
    cases walk ns b p.dropLast with
    | none => rfl
    | some par =>
      cases findEdge ns par last with
      | none => rfl
      | some t => rfl

/-- The resolver call made with `L_DIRECTORY` (resolution of the shared
directory portion of the two rename paths), in closed form. -/
theorem lookup_dir_eq (bk : Backend) (ns : List Edge) (b : Triplet) (p : Path) :
    vfs_lookup_internal bk ns b p L_DIRECTORY =
      match walk ns b p with
      | none => .error .ENOENT
      | some t =>
        if bk.typeOf t ≠ .directory then .error .EINVAL else .ok (t, ns) := by
  unfold vfs_lookup_internal
  rw [if_neg (by decide)]
  cases walk ns b p with
  | none => rfl
  | some t =>
    show (if L_DIRECTORY &&& L_CREATE ≠ 0 ∧ L_DIRECTORY &&& L_EXCLUSIVE ≠ 0 then
        (Except.error Errno.EEXIST : Except Errno (Triplet × List Edge))
      else if L_DIRECTORY &&& L_DIRECTORY ≠ 0 ∧ bk.typeOf t ≠ VfsNodeType.directory then
        Except.error Errno.EINVAL
      else if L_DIRECTORY &&& L_FILE ≠ 0 ∧ bk.typeOf t ≠ VfsNodeType.regular then
        Except.error Errno.EINVAL
      else Except.ok (t, ns)) =
      if bk.typeOf t ≠ VfsNodeType.directory then Except.error Errno.EINVAL
      else Except.ok (t, ns)
    have hno1 : ¬(L_DIRECTORY &&& L_CREATE ≠ 0 ∧ L_DIRECTORY &&& L_EXCLUSIVE ≠ 0) := by
      decide
    have hno3 : ¬(L_DIRECTORY &&& L_FILE ≠ 0 ∧ bk.typeOf t ≠ VfsNodeType.regular) :=
      fun hc => hc.1 (by decide)
    rw [if_neg hno1]
    by_cases hd : bk.typeOf t ≠ VfsNodeType.directory
    · rw [if_pos ⟨by decide, hd⟩, if_pos hd]
    · rw [if_neg (fun hc => hd hc.2), if_neg hno3, if_neg hd]

theorem lookup_dir_error_ne {bk : Backend} {ns : List Edge} {b : Triplet} {p : Path}
    {e : Errno} (h : vfs_lookup_internal bk ns b p L_DIRECTORY = .error e) :
    e ≠ Errno.EOK := by
  rw [lookup_dir_eq] at h
  cases hw : walk ns b p with
  | none =>
    rw [hw] at h
    cases h
    decide
  | some t =>
    rw [hw] at h
    have h' : (if bk.typeOf t ≠ VfsNodeType.directory then
        (Except.error Errno.EINVAL : Except Errno (Triplet × List Edge))
      else Except.ok (t, ns)) = Except.error e := h
    by_cases hd : bk.typeOf t ≠ VfsNodeType.directory
    · rw [if_pos hd] at h'
      cases h'
      decide
    · rw [if_neg hd] at h'
      cases h'

theorem lookup_dir_ok_walk {bk : Backend} {ns : List Edge} {b t : Triplet} {p : Path}
    {ns' : List Edge} (h : vfs_lookup_internal bk ns b p L_DIRECTORY = .ok (t, ns')) :
    walk ns b p = some t := by
  rw [lookup_dir_eq] at h
  cases hw : walk ns b p with
  | none => rw [hw] at h; cases h
  | some u =>
    rw [hw] at h
    have h' : (if bk.typeOf u ≠ VfsNodeType.directory then
        (Except.error Errno.EINVAL : Except Errno (Triplet × List Edge))
      else Except.ok (u, ns)) = Except.ok (t, ns') := h
    by_cases hd : bk.typeOf u ≠ VfsNodeType.directory
    · rw [if_pos hd] at h'
      cases h'
    · rw [if_neg hd] at h'
      cases h'
      rfl

/-- The plain lookup (flags 0) is the namespace walk. -/
theorem lookup_zero_eq (bk : Backend) (ns : List Edge) (b : Triplet) (p : Path) :
    vfs_lookup_internal bk ns b p 0 =
      match walk ns b p with
      | some t => .ok (t, ns)
      | none => .error .ENOENT := by
  unfold vfs_lookup_internal
  rw [if_neg (by decide)]
  cases walk ns b p with
  | none => rfl
  | some t => rfl

/-! ### Helper lemmas for the rename proof -/

theorem walk_append_some {ns : List Edge} {base b : Triplet} {Sp q : Path} {x : Triplet}
    (hSp : walk ns base Sp = some b) (hq : walk ns b q = some x) :
    walk ns base (Sp ++ q) = some x := by
  rw [walk_append, hSp]
  exact hq

theorem walk_append_inv {ns : List Edge} {base b : Triplet} {Sp q : Path} {x : Triplet}
    (hSp : walk ns base Sp = some b) (h : walk ns base (Sp ++ q) = some x) :
    walk ns b q = some x := by
  rw [walk_append, hSp] at h
  exact h

theorem getLast?_decomp {α : Type} {l : List α} {x : α} (h : l.getLast? = some x) :
    l = l.dropLast ++ [x] := by
  induction l using List.reverseRecOn with
  | nil => cases h
  | append_singleton q y _ =>
    rw [List.getLast?_concat] at h
    cases h
    rw [List.dropLast_concat]

theorem ne_nil_of_getLast? {α : Type} {l : List α} {x : α} (h : l.getLast? = some x) :
    l ≠ [] := by
  intro hl
  rw [hl] at h
  cases h

/-- A walk of a path strictly shorter than the (unique) path to `tgt` never
sits at `tgt`'s parent entry about to consume its name.  This discharges the
side conditions of the frame lemmas. -/
theorem walk_no_hit {ns : List Edge} {base : Triplet} (hwf : WF ns base)
    {Full : Path} {tgt : Triplet} (hFull : walk ns base Full = some tgt)
    {p : Triplet} {n : String} (hfe : findEdge ns p n = some tgt)
    {W : Path} (hlen : W.length < Full.length) :
    ∀ k, (hk : k < W.length) → ∀ y, walk ns base (W.take k) = some y →
      ¬(y = p ∧ W.get ⟨k, hk⟩ = n) := by
  intro k hk y hy hcon
  obtain ⟨h1, h2⟩ := hcon
  subst h1
  have htk : walk ns base (W.take (k + 1)) = some tgt := by
    rw [take_succ_get W hk]
    refine walk_concat.mpr ⟨y, hy, ?_⟩
    rw [h2]
    exact hfe
  have heq := walk_unique hwf htk hFull
  have hlt : (W.take (k + 1)).length = Full.length := by rw [heq]
  rw [List.length_take] at hlt
  omega

/-- Steps 2 and 3 of rename, proved against an abstract step-1 outcome.
`ns0` is the pre-call namespace, `ns1` the namespace after the unlink of the
`new` path (equal to `ns0` when `new` did not exist); `hrestore` says that
the compensating relink of the displaced `new` entry restores `ns0` from any
namespace that looks like `ns1`. -/
theorem renameSteps23_core (bk : Backend) (ns0 ns1 : List Edge) (base b : Triplet)
    (Sp oldP newP : Path) (orig : Option Triplet)
    (hwf0 : WF ns0 base)
    (hwf1 : WF ns1 base)
    (hsub1 : ns1.Sublist ns0)
    (hlink : ∀ p n t, bk.linkErr p n t = none)
    (herr : ∀ p n, bk.unlinkErr p n ≠ some Errno.EOK)
    (hSp1 : walk ns1 base Sp = some b)
    (hne : oldP ≠ newP)
    (hrestore : ∀ m : List Edge, (∀ x c, findEdge m x c = findEdge ns1 x c) →
        ∀ x c, findEdge (relinkOrig bk m b newP orig) x c = findEdge ns0 x c) :
    ((renameSteps23 bk ns1 b oldP newP orig).1 = Errno.EOK →
        walk (renameSteps23 bk ns1 b oldP newP orig).2 base (Sp ++ oldP) = none ∧
        ∃ t, walk ns0 base (Sp ++ oldP) = some t ∧
          walk (renameSteps23 bk ns1 b oldP newP orig).2 base (Sp ++ newP) = some t) ∧
    ((renameSteps23 bk ns1 b oldP newP orig).1 ≠ Errno.EOK →
        ∀ x c, findEdge (renameSteps23 bk ns1 b oldP newP orig).2 x c = findEdge ns0 x c) := by
  cases h2last : oldP.getLast? with
  | none =>
    have hres : renameSteps23 bk ns1 b oldP newP orig =
        (Errno.ENOENT, relinkOrig bk ns1 b newP orig) := by
      unfold renameSteps23
      rw [lookup_unlink_eq]
      simp only [h2last]
    rw [hres]
    exact ⟨fun h => Errno.noConfusion h, fun _ => hrestore ns1 (fun x c => rfl)⟩
  | some lasto =>
    cases h2par : walk ns1 b oldP.dropLast with
    | none =>
      have hres : renameSteps23 bk ns1 b oldP newP orig =
          (Errno.ENOENT, relinkOrig bk ns1 b newP orig) := by
        unfold renameSteps23
        rw [lookup_unlink_eq]
        simp only [h2last, h2par]
      rw [hres]
      exact ⟨fun h => Errno.noConfusion h, fun _ => hrestore ns1 (fun x c => rfl)⟩
    | some p_o =>
      cases h2fe : findEdge ns1 p_o lasto with
      | none =>
        have hres : renameSteps23 bk ns1 b oldP newP orig =
            (Errno.ENOENT, relinkOrig bk ns1 b newP orig) := by
          unfold renameSteps23
          rw [lookup_unlink_eq]
          simp only [h2last, h2par, h2fe]
        rw [hres]
        exact ⟨fun h => Errno.noConfusion h, fun _ => hrestore ns1 (fun x c => rfl)⟩
      | some tOld =>
        cases h2err : bk.unlinkErr p_o lasto with
        | some e =>
          have hres : renameSteps23 bk ns1 b oldP newP orig =
              (e, relinkOrig bk ns1 b newP orig) := by
            unfold renameSteps23
            rw [lookup_unlink_eq]
            simp only [h2last, h2par, h2fe, h2err]
          rw [hres]
          refine ⟨fun h => ?_, fun _ => hrestore ns1 (fun x c => rfl)⟩
          exact absurd (h ▸ h2err) (herr p_o lasto)
        | none =>
          -- Step 2 succeeded: the old entry (p_o, lasto) → tOld is removed.
          have holddec : oldP = oldP.dropLast ++ [lasto] := getLast?_decomp h2last
          have holdne : oldP ≠ [] := ne_nil_of_getLast? h2last
          have hfull1 : walk ns1 base (Sp ++ oldP) = some tOld := by
            refine walk_append_some hSp1 ?_
            conv_lhs => rw [holddec]
            exact walk_concat.mpr ⟨p_o, h2par, h2fe⟩
          have hdl1 : walk ns1 base (Sp ++ oldP.dropLast) = some p_o :=
            walk_append_some hSp1 h2par
          have hlenlt : (Sp ++ oldP.dropLast).length < (Sp ++ oldP).length := by
            simp only [List.length_append, List.length_dropLast]
            have : 0 < oldP.length := List.length_pos.mpr holdne
            omega
          have hSplen : Sp.length < (Sp ++ oldP).length := by
            simp only [List.length_append]
            have : 0 < oldP.length := List.length_pos.mpr holdne
            omega
          have hdl2 : walk (eraseKey ns1 p_o lasto) base (Sp ++ oldP.dropLast) = some p_o := by
            rw [walk_eraseKey_of_ne (walk_no_hit hwf1 hfull1 h2fe hlenlt)]
            exact hdl1
          have hSp2 : walk (eraseKey ns1 p_o lasto) base Sp = some b := by
            rw [walk_eraseKey_of_ne (walk_no_hit hwf1 hfull1 h2fe hSplen)]
            exact hSp1
          have hw2b : walk (eraseKey ns1 p_o lasto) b oldP.dropLast = some p_o :=
            walk_append_inv hSp2 hdl2
          have hwf2 : WF (eraseKey ns1 p_o lasto) base :=
            WF_sublist (eraseKey_sublist _ _ _) hwf1
          have hrelinkA : relink bk (eraseKey ns1 p_o lasto) b oldP tOld =
              Edge.mk p_o lasto tOld :: eraseKey ns1 p_o lasto := by
            unfold relink vfs_link_internal
            simp only [h2last, hw2b, findEdge_eraseKey_self, hlink]
          have hFEqA : ∀ x c,
              findEdge (Edge.mk p_o lasto tOld :: eraseKey ns1 p_o lasto) x c =
                findEdge ns1 x c :=
            findEdge_reinsert hwf1.1 h2fe
          cases h3last : newP.getLast? with
          | none =>
            have hres : renameSteps23 bk ns1 b oldP newP orig =
                (Errno.ENOENT,
                  relinkOrig bk (relink bk (eraseKey ns1 p_o lasto) b oldP tOld) b newP orig) := by
              unfold renameSteps23
              rw [lookup_unlink_eq]
              simp only [h2last, h2par, h2fe, h2err, vfs_link_internal, h3last]
            rw [hres]
            refine ⟨fun h => Errno.noConfusion h, fun _ => ?_⟩
            rw [hrelinkA]
            exact hrestore _ hFEqA
          | some lastn =>
            have hnewdec : newP = newP.dropLast ++ [lastn] := getLast?_decomp h3last
            have hnewne : newP ≠ [] := ne_nil_of_getLast? h3last
            cases h3par : walk (eraseKey ns1 p_o lasto) b newP.dropLast with
            | none =>
              have hres : renameSteps23 bk ns1 b oldP newP orig =
                  (Errno.ENOENT,
                    relinkOrig bk (relink bk (eraseKey ns1 p_o lasto) b oldP tOld) b newP orig) := by
                unfold renameSteps23
                rw [lookup_unlink_eq]
                simp only [h2last, h2par, h2fe, h2err, vfs_link_internal, h3last, h3par]
              rw [hres]
              refine ⟨fun h => Errno.noConfusion h, fun _ => ?_⟩
              rw [hrelinkA]
              exact hrestore _ hFEqA
            | some p_n =>
              cases h3fe : findEdge (eraseKey ns1 p_o lasto) p_n lastn with
              | some u =>
                have hres : renameSteps23 bk ns1 b oldP newP orig =
                    (Errno.EEXIST,
                      relinkOrig bk (relink bk (eraseKey ns1 p_o lasto) b oldP tOld) b newP orig) := by
                  unfold renameSteps23
                  rw [lookup_unlink_eq]
                  simp only [h2last, h2par, h2fe, h2err, vfs_link_internal, h3last, h3par, h3fe]
                rw [hres]
                refine ⟨fun h => Errno.noConfusion h, fun _ => ?_⟩
                rw [hrelinkA]
                exact hrestore _ hFEqA
              | none =>
                -- Step 3 succeeded: rename returns EOK.
                have hres : renameSteps23 bk ns1 b oldP newP orig =
                    (Errno.EOK,
                      Edge.mk p_n lastn tOld :: eraseKey ns1 p_o lasto) := by
                  unfold renameSteps23
                  rw [lookup_unlink_eq]
                  simp only [h2last, h2par, h2fe, h2err, vfs_link_internal, h3last, h3par, h3fe,
                    hlink]
                rw [hres]
                refine ⟨fun _ => ?_, fun h => absurd rfl h⟩
                have hndl2 : walk (eraseKey ns1 p_o lasto) base (Sp ++ newP.dropLast) =
                    some p_n := walk_append_some hSp2 h3par
                have hGBdl : walk (Edge.mk p_n lastn tOld :: eraseKey ns1 p_o lasto) base
                    (Sp ++ newP.dropLast) = some p_n := by
                  rw [walk_cons_of_ne ?hcond]
                  · exact hndl2
                  case hcond =>
                    intro k hk y hy hcon
                    obtain ⟨hy1, hy2⟩ := hcon
                    obtain ⟨y', z, hy', hfe', -⟩ := walk_step hndl2 hk
                    rw [hy] at hy'
                    cases hy'
                    rw [hy1, hy2] at hfe'
                    rw [h3fe] at hfe'
                    cases hfe'
                have hGB : walk (Edge.mk p_n lastn tOld :: eraseKey ns1 p_o lasto) base
                    (Sp ++ newP) = some tOld := by
                  conv_lhs => rw [hnewdec, ← List.append_assoc]
                  refine walk_concat.mpr ⟨p_n, hGBdl, ?_⟩
                  exact findEdge_cons_self ⟨p_n, lastn, tOld⟩ _
                have hkeys3 : edgeKeys (Edge.mk p_n lastn tOld :: eraseKey ns1 p_o lasto) =
                    (p_n, lastn) :: edgeKeys (eraseKey ns1 p_o lasto) := rfl
                have htgts3 : edgeTgts (Edge.mk p_n lastn tOld :: eraseKey ns1 p_o lasto) =
                    tOld :: edgeTgts (eraseKey ns1 p_o lasto) := rfl
                have hwf3 : WF (Edge.mk p_n lastn tOld :: eraseKey ns1 p_o lasto) base := by
                  refine ⟨?_, ?_, ?_⟩
                  · rw [hkeys3]
                    exact List.nodup_cons.mpr ⟨findEdge_none_iff.mp h3fe, hwf2.1⟩
                  · rw [htgts3]
                    exact List.nodup_cons.mpr
                      ⟨child_not_mem_eraseKey hwf1.2.1 h2fe, hwf2.2.1⟩
                  · rw [htgts3]
                    have h1 : tOld ∈ edgeTgts ns1 :=
                      List.mem_map.mpr ⟨Edge.mk p_o lasto tOld, findEdge_some_mem h2fe, rfl⟩
                    have h0 : tOld ∈ edgeTgts ns0 := (edgeTgts_sublist hsub1).subset h1
                    have hb0 : base ≠ tOld := fun hb => hwf0.2.2 (hb ▸ h0)
                    intro hmem
                    rcases List.mem_cons.mp hmem with h1' | h1'
                    · exact hb0 h1'
                    · exact hwf2.2.2 h1'
                constructor
                · -- After EOK, the old path no longer resolves.
                  cases hA : walk (Edge.mk p_n lastn tOld :: eraseKey ns1 p_o lasto) base
                      (Sp ++ oldP) with
                  | none => rfl
                  | some t =>
                    exfalso
                    rcases walk_cons_split hA with hL | ⟨k, hk, hkw⟩
                    · have hL' : walk (eraseKey ns1 p_o lasto) base
                          ((Sp ++ oldP.dropLast) ++ [lasto]) = some t := by
                        rw [List.append_assoc, ← holddec]
                        exact hL
                      obtain ⟨q, hq, hqfe⟩ := walk_concat.mp hL'
                      have hq1 : walk ns1 base (Sp ++ oldP.dropLast) = some q :=
                        walk_sub (fun e he => (eraseKey_sublist ns1 p_o lasto).subset he)
                          hwf1.1 hq
                      rw [hdl1] at hq1
                      cases hq1
                      rw [findEdge_eraseKey_self] at hqfe
                      cases hqfe
                    · have hkw' : walk (Edge.mk p_n lastn tOld :: eraseKey ns1 p_o lasto) base
                          ((Sp ++ oldP).take (k + 1)) = some tOld := hkw
                      have huniq := walk_unique hwf3 hkw' hGB
                      by_cases hfin : k + 1 = (Sp ++ oldP).length
                      · rw [List.take_of_length_le (by omega)] at huniq
                        exact hne (List.append_cancel_left huniq)
                      · have hklt : k + 1 < (Sp ++ oldP).length := by omega
                        have hproper : Sp ++ oldP =
                            (Sp ++ newP) ++ (Sp ++ oldP).drop (k + 1) := by
                          conv_lhs => rw [← List.take_append_drop (k + 1) (Sp ++ oldP)]
                          rw [huniq]
                        have hrne : (Sp ++ oldP).drop (k + 1) ≠ [] := by
                          intro hr
                          have := congrArg List.length hr
                          simp only [List.length_drop, List.length_nil] at this
                          omega
                        have hfull1' : walk ns1 base
                            ((Sp ++ newP) ++ (Sp ++ oldP).drop (k + 1)) = some tOld := by
                          rw [← hproper]
                          exact hfull1
                        obtain ⟨m, hm⟩ := walk_take hfull1' (Sp ++ newP).length
                        rw [List.take_left] at hm
                        have hm' : walk ns1 base ((Sp ++ newP.dropLast) ++ [lastn]) =
                            some m := by
                          rw [List.append_assoc, ← hnewdec]
                          exact hm
                        obtain ⟨p₁, hp₁, hfe₁⟩ := walk_concat.mp hm'
                        have hp₁' : walk ns1 base (Sp ++ newP.dropLast) = some p_n :=
                          walk_sub (fun e he => (eraseKey_sublist ns1 p_o lasto).subset he)
                            hwf1.1 hndl2
                        rw [hp₁'] at hp₁
                        cases hp₁
                        by_cases hkey : p_n = p_o ∧ lastn = lasto
                        · have hdleq := walk_unique hwf1 (hkey.1 ▸ hp₁') hdl1
                          have : newP.dropLast = oldP.dropLast :=
                            List.append_cancel_left hdleq
                          apply hne
                          rw [holddec, hnewdec, this, hkey.2]
                        · have hfmem : Edge.mk p_n lastn m ∈ ns1 := findEdge_some_mem hfe₁
                          have hfmem2 : Edge.mk p_n lastn m ∈ eraseKey ns1 p_o lasto := by
                            refine mem_eraseKey.mpr ⟨hfmem, ?_⟩
                            simpa using hkey
                          have := mem_findEdge_of_nodup hwf2.1 hfmem2
                          simp only at this
                          rw [h3fe] at this
                          cases this
                · -- After EOK, the new path resolves to old's pre-call triplet.
                  refine ⟨tOld, ?_, hGB⟩
                  exact walk_sub (fun e he => hsub1.subset he) hwf0.1 hfull1

/-- Step 1 plus the core: the full body of rename after the base directory
has been resolved. -/
theorem renameSteps123_spec (bk : Backend) (ns : List Edge) (base b : Triplet)
    (Sp oldP newP : Path)
    (hwf : WF ns base)
    (hlink : ∀ p n t, bk.linkErr p n t = none)
    (herr : ∀ p n, bk.unlinkErr p n ≠ some Errno.EOK)
    (hSp : walk ns base Sp = some b)
    (hne : oldP ≠ newP) :
    ((renameSteps123 bk ns b oldP newP).1 = Errno.EOK →
        walk (renameSteps123 bk ns b oldP newP).2 base (Sp ++ oldP) = none ∧
        ∃ t, walk ns base (Sp ++ oldP) = some t ∧
          walk (renameSteps123 bk ns b oldP newP).2 base (Sp ++ newP) = some t) ∧
    ((renameSteps123 bk ns b oldP newP).1 ≠ Errno.EOK →
        ∀ x c, findEdge (renameSteps123 bk ns b oldP newP).2 x c = findEdge ns x c) := by
  have hcore0 := renameSteps23_core bk ns ns base b Sp oldP newP none hwf hwf
    (List.Sublist.refl ns) hlink herr hSp hne (fun m hm x c => hm x c)
  cases h1last : newP.getLast? with
  | none =>
    have hres : renameSteps123 bk ns b oldP newP =
        renameSteps23 bk ns b oldP newP none := by
      unfold renameSteps123
      rw [lookup_unlink_eq]
      simp only [h1last]
      rw [if_pos trivial]
    rw [hres]
    exact hcore0
  | some lastn =>
    cases h1par : walk ns b newP.dropLast with
    | none =>
      have hres : renameSteps123 bk ns b oldP newP =
          renameSteps23 bk ns b oldP newP none := by
        unfold renameSteps123
        rw [lookup_unlink_eq]
        simp only [h1last, h1par]
        rw [if_pos trivial]
      rw [hres]
      exact hcore0
    | some p_n =>
      cases h1fe : findEdge ns p_n lastn with
      | none =>
        have hres : renameSteps123 bk ns b oldP newP =
            renameSteps23 bk ns b oldP newP none := by
          unfold renameSteps123
          rw [lookup_unlink_eq]
          simp only [h1last, h1par, h1fe]
          rw [if_pos trivial]
        rw [hres]
        exact hcore0
      | some tN =>
        cases h1err : bk.unlinkErr p_n lastn with
        | some e =>
          by_cases he : e = Errno.ENOENT
          · subst he
            have hres : renameSteps123 bk ns b oldP newP =
                renameSteps23 bk ns b oldP newP none := by
              unfold renameSteps123
              rw [lookup_unlink_eq]
              simp only [h1last, h1par, h1fe, h1err]
              rw [if_pos trivial]
            rw [hres]
            exact hcore0
          · have hres : renameSteps123 bk ns b oldP newP = (e, ns) := by
              unfold renameSteps123
              rw [lookup_unlink_eq]
              simp only [h1last, h1par, h1fe, h1err]
              rw [if_neg he]
            rw [hres]
            refine ⟨fun h => ?_, fun _ x c => rfl⟩
            exact absurd (h ▸ h1err) (herr p_n lastn)
        | none =>
          -- Step 1 unlinked the original new entry (p_n, lastn) → tN.
          have hnewdec : newP = newP.dropLast ++ [lastn] := getLast?_decomp h1last
          have hnewne : newP ≠ [] := ne_nil_of_getLast? h1last
          have hFull : walk ns base (Sp ++ newP) = some tN := by
            refine walk_append_some hSp ?_
            conv_lhs => rw [hnewdec]
            exact walk_concat.mpr ⟨p_n, h1par, h1fe⟩
          have hdlF : walk ns base (Sp ++ newP.dropLast) = some p_n :=
            walk_append_some hSp h1par
          have hlen1 : Sp.length < (Sp ++ newP).length := by
            simp only [List.length_append]
            have : 0 < newP.length := List.length_pos.mpr hnewne
            omega
          have hlen2 : (Sp ++ newP.dropLast).length < (Sp ++ newP).length := by
            simp only [List.length_append, List.length_dropLast]
            have : 0 < newP.length := List.length_pos.mpr hnewne
            omega
          have hwf1 : WF (eraseKey ns p_n lastn) base :=
            WF_sublist (eraseKey_sublist _ _ _) hwf
          have hSp1 : walk (eraseKey ns p_n lastn) base Sp = some b := by
            rw [walk_eraseKey_of_ne (walk_no_hit hwf hFull h1fe hlen1)]
            exact hSp
          have hdl1 : walk (eraseKey ns p_n lastn) base (Sp ++ newP.dropLast) = some p_n := by
            rw [walk_eraseKey_of_ne (walk_no_hit hwf hFull h1fe hlen2)]
            exact hdlF
          have hb1 : walk (eraseKey ns p_n lastn) b newP.dropLast = some p_n :=
            walk_append_inv hSp1 hdl1
          have hrestoreS : ∀ m : List Edge,
              (∀ x c, findEdge m x c = findEdge (eraseKey ns p_n lastn) x c) →
              ∀ x c, findEdge (relinkOrig bk m b newP (some tN)) x c = findEdge ns x c := by
            intro m hm x c
            have hwm : walk m b newP.dropLast = some p_n := by
              rw [walk_congr hm b newP.dropLast]
              exact hb1
            have hfm : findEdge m p_n lastn = none := by
              rw [hm p_n lastn]
              exact findEdge_eraseKey_self ns p_n lastn
            have hlinkeq : vfs_link_internal bk m b newP tN =
                .ok (Edge.mk p_n lastn tN :: m) := by
              unfold vfs_link_internal
              simp only [h1last, hwm, hfm, hlink]
            have hrel : relinkOrig bk m b newP (some tN) = Edge.mk p_n lastn tN :: m := by
              show relink bk m b newP tN = _
              unfold relink
              rw [hlinkeq]
            rw [hrel]
            by_cases hkey : p_n = x ∧ lastn = c
            · obtain ⟨hk1, hk2⟩ := hkey
              rw [← hk1, ← hk2]
              exact (findEdge_cons_self ⟨p_n, lastn, tN⟩ m).trans h1fe.symm
            · rw [findEdge_cons_of_ne m hkey, hm x c,
                findEdge_eraseKey_of_ne ns (fun hc => hkey ⟨hc.1.symm, hc.2.symm⟩)]
          have hcoreS := renameSteps23_core bk ns (eraseKey ns p_n lastn) base b Sp oldP newP
            (some tN) hwf hwf1 (eraseKey_sublist ns p_n lastn) hlink herr hSp1 hne hrestoreS
          have hres : renameSteps123 bk ns b oldP newP =
              renameSteps23 bk (eraseKey ns p_n lastn) b oldP newP (some tN) := by
            unfold renameSteps123
            rw [lookup_unlink_eq]
            simp only [h1last, h1par, h1fe, h1err]
          rw [hres]
          exact hcoreS

/-- C1: rename atomicity.  For every base triplet and pair of canonical paths
`a`, `b`: if `rename(a,b)` returns `EOK` then a subsequent lookup of `a`
yields `ENOENT` (the walk fails) and a lookup of `b` yields `a`'s pre-call
triplet; on any failure the compensating relinks restore the namespace so
that `a` and `b` resolve exactly as before the call.  The backend is assumed
not to fail the compensating relinks (`hlink`) and not to report the
nonsensical "error `EOK`" from an unlink (`herr`); the namespace satisfies
the single-parent well-formedness invariants. -/
theorem rename_atomic (bk : Backend) (ns : List Edge) (base : Triplet)
    (old new : List Char)
    (hwf : WF ns base) (hco : Canonical old) (hcn : Canonical new)
    (hlink : ∀ p n t, bk.linkErr p n t = none)
    (herr : ∀ p n, bk.unlinkErr p n ≠ some Errno.EOK) :
    ((vfs_rename_internal bk ns base old new).1 = Errno.EOK →
        walk (vfs_rename_internal bk ns base old new).2 base (comps old) = none ∧
        ∃ t, walk ns base (comps old) = some t ∧
          walk (vfs_rename_internal bk ns base old new).2 base (comps new) = some t) ∧
    ((vfs_rename_internal bk ns base old new).1 ≠ Errno.EOK →
        walk (vfs_rename_internal bk ns base old new).2 base (comps old) =
          walk ns base (comps old) ∧
        walk (vfs_rename_internal bk ns base old new).2 base (comps new) =
          walk ns base (comps new)) := by
  by_cases hguard : charAt old (shared_path old new) = NUL ∨
      charAt new (shared_path old new) = NUL
  · have hres : vfs_rename_internal bk ns base old new = (Errno.EINVAL, ns) := by
      unfold vfs_rename_internal
      rw [if_pos hguard]
    rw [hres]
    exact ⟨fun h => Errno.noConfusion h, fun _ => ⟨rfl, rfl⟩⟩
  · obtain ⟨hga, hgb⟩ := not_or.mp hguard
    obtain ⟨hslo, hsln, hlt, htake⟩ := shared_path_guard hco hcn hga
    have hsplit_old : comps old =
        comps (old.take (shared_path old new)) ++
          comps (old.drop (shared_path old new)) := comps_split hslo
    have hsplit_new : comps new =
        comps (new.take (shared_path old new)) ++
          comps (new.drop (shared_path old new)) := comps_split hsln
    have hSpeq : comps (old.take (shared_path old new)) =
        comps (new.take (shared_path old new)) := by rw [htake]
    have hne : comps (old.drop (shared_path old new)) ≠
        comps (new.drop (shared_path old new)) := by
      intro heq
      have hcomps : comps old = comps new := by
        rw [hsplit_old, hsplit_new, hSpeq, heq]
      have heqs : old = new := canonical_inj hco hcn hcomps
      apply hga
      rw [heqs]
      exact shared_path_self (canonical_no_NUL hcn)
    have hmain : ∀ b : Triplet,
        walk ns base (comps (old.take (shared_path old new))) = some b →
        vfs_rename_internal bk ns base old new =
          renameSteps123 bk ns b (comps (old.drop (shared_path old new)))
            (comps (new.drop (shared_path old new))) →
        ((vfs_rename_internal bk ns base old new).1 = Errno.EOK →
            walk (vfs_rename_internal bk ns base old new).2 base (comps old) = none ∧
            ∃ t, walk ns base (comps old) = some t ∧
              walk (vfs_rename_internal bk ns base old new).2 base (comps new) = some t) ∧
        ((vfs_rename_internal bk ns base old new).1 ≠ Errno.EOK →
            walk (vfs_rename_internal bk ns base old new).2 base (comps old) =
              walk ns base (comps old) ∧
            walk (vfs_rename_internal bk ns base old new).2 base (comps new) =
              walk ns base (comps new)) := by
      intro b hwalkSp hres
      have hspec := renameSteps123_spec bk ns base b
        (comps (old.take (shared_path old new)))
        (comps (old.drop (shared_path old new)))
        (comps (new.drop (shared_path old new)))
        hwf hlink herr hwalkSp hne
      rw [hres]
      constructor
      · intro h
        obtain ⟨hA, t, hpre, hB⟩ := hspec.1 h
        refine ⟨?_, t, ?_, ?_⟩
        · rw [hsplit_old]
          exact hA
        · rw [hsplit_old]
          exact hpre
        · rw [hsplit_new, ← hSpeq]
          exact hB
      · intro h
        have hFEq := hspec.2 h
        exact ⟨walk_congr hFEq base (comps old), walk_congr hFEq base (comps new)⟩
    by_cases hsh : shared_path old new ≠ 0
    · cases hbase : vfs_lookup_internal bk ns base
          (comps (old.take (shared_path old new))) L_DIRECTORY with
      | error e =>
        have hres : vfs_rename_internal bk ns base old new = (e, ns) := by
          unfold vfs_rename_internal
          rw [if_neg hguard, if_pos hsh, hbase]
        rw [hres]
        exact ⟨fun h => absurd h (lookup_dir_error_ne hbase), fun _ => ⟨rfl, rfl⟩⟩
      | ok bt =>
        obtain ⟨b, nsb⟩ := bt
        have hwalkSp : walk ns base (comps (old.take (shared_path old new))) = some b :=
          lookup_dir_ok_walk hbase
        refine hmain b hwalkSp ?_
        unfold vfs_rename_internal
        rw [if_neg hguard, if_pos hsh, hbase]
    · have hsh0 : shared_path old new = 0 := not_not.mp hsh
      have hwalkSp : walk ns base (comps (old.take (shared_path old new))) = some base := by
        rw [hsh0]
        rfl
      refine hmain base hwalkSp ?_
      unfold vfs_rename_internal
      rw [if_neg hguard, if_neg hsh]

/-! ### Concrete instances used by the witnesses and counterexamples -/

/-- A backend that never injects failures; all nodes regular except the ones
listed in `dirs`. -/
def bkOf (dirs : List Triplet) : Backend where
  typeOf := fun t => if t ∈ dirs then .directory else .regular
  sizeOf := fun _ => 0
  unlinkErr := fun _ _ => none
  linkErr := fun _ _ _ => none
  fresh := fun p n => ⟨p.fs_handle, p.service_id, p.index + n.length + 1000⟩

def rootT : Triplet := ⟨1, 1, 0⟩
def tA : Triplet := ⟨1, 1, 10⟩
def tB : Triplet := ⟨1, 1, 11⟩

def strA : List Char := ['/', 'a']
def strB : List Char := ['/', 'b']
def strAB : List Char := ['/', 'a', '/', 'b']

example : shared_path strA strAB = 0 := by decide
example : shared_path strA strB = 0 := by decide
example : comps strAB = ["a", "b"] := by decide
example : Canonical strAB := by decide
example :
    vfs_rename_internal (bkOf [rootT]) [⟨rootT, "a", tA⟩, ⟨rootT, "b", tB⟩] rootT strA strB =
      (.EOK, [⟨rootT, "b", tA⟩]) := by decide
example :
    (vfs_rename_internal (bkOf [rootT, tA]) [⟨rootT, "a", tA⟩, ⟨tA, "b", tB⟩] rootT strA strAB).1 =
      .ENOENT := by decide

/-- Witness for C1: a concrete successful rename of "/a" onto "/b" under the
root, with every hypothesis of `rename_atomic` discharged. -/
theorem rename_atomic_witness :
    walk (vfs_rename_internal (bkOf [rootT]) [⟨rootT, "a", tA⟩, ⟨rootT, "b", tB⟩] rootT
        strA strB).2 rootT (comps strA) = none ∧
    ∃ t, walk [⟨rootT, "a", tA⟩, ⟨rootT, "b", tB⟩] rootT (comps strA) = some t ∧
      walk (vfs_rename_internal (bkOf [rootT]) [⟨rootT, "a", tA⟩, ⟨rootT, "b", tB⟩] rootT
          strA strB).2 rootT (comps strB) = some t :=
  (rename_atomic (bkOf [rootT]) [⟨rootT, "a", tA⟩, ⟨rootT, "b", tB⟩] rootT strA strB
    (by decide) (by decide) (by decide)
    (fun _ _ _ => rfl) (fun _ _ h => Option.noConfusion h)).1 (by decide)

/-- C2 (code bug): at `old = "/a"`, `new = "/a/b"` — the failing input of the
claim — `shared_path` returns 0 and both paths carry `'/'` at index 0, so the
guard `old[shared] == 0 || new[shared] == 0` is false: rename does **not**
return `EINVAL`.  Instead it proceeds into the unlink lookups (here, on a
namespace with directory `/a` containing `b`, it unlinks both names, fails the
final link and returns the resolver's `ENOENT`).  The guard fires only when
the two paths are equal, contradicting the comment above it ("Do not allow
one path to be a prefix of the other"). -/
theorem rename_prefix_guard_miss :
    shared_path strA strAB = 0 ∧
    ¬(charAt strA (shared_path strA strAB) = NUL ∨
      charAt strAB (shared_path strA strAB) = NUL) ∧
    (vfs_rename_internal (bkOf [rootT, tA]) [⟨rootT, "a", tA⟩, ⟨tA, "b", tB⟩] rootT
        strA strAB).1 = Errno.ENOENT ∧
    (vfs_rename_internal (bkOf [rootT, tA]) [⟨rootT, "a", tA⟩, ⟨tA, "b", tB⟩] rootT
        strA strAB).1 ≠ Errno.EINVAL := by
  refine ⟨by decide, by decide, by decide, by decide⟩

/-! ## Seek (`vfs_seek` in `vfs_ops.c`)

`aoff64_t` (the file position) is a `Nat` taken modulo `2^64`; `off64_t`
(the requested offset) is an `Int` in the signed 64-bit range.  `OFF64_MAX`
and the `SEEK_*` selector values are modelled from the spec (their headers
are not in the snapshot). -/

def U64 : Nat := 2 ^ 64

def OFF64_MAX : Nat := 2 ^ 63 - 1

def SEEK_SET : Nat := 0
def SEEK_CUR : Nat := 1
def SEEK_END : Nat := 2

/-- Conversion of an `off64_t` to `aoff64_t` (two's complement). -/
def off64ToU (off : Int) : Nat := (off % (2 ^ 64 : Int)).toNat

/-- The C expression `file->pos + off`: unsigned 64-bit addition of a
converted signed offset. -/
def uaddOff (pos : Nat) (off : Int) : Nat := (pos + off64ToU off) % U64

/-- `vfs_seek` from `vfs_ops.c`, after the descriptor has been found and its
mutex taken.  `pos` is `file->pos`; `size` is `vfs_node_get_size(file->node)`
(read under the node contents read-lock, used only by `SEEK_END`).  Returns
the reply — status plus the merged 64-bit value answered to the client — and
the new position. -/
def vfs_seek (pos size : Nat) (off : Int) (whence : Nat) :
    (Errno × Option Nat) × Nat :=
  if whence = SEEK_SET then
    if 0 ≤ off then ((.EOK, some off.toNat), off.toNat)
    else ((.EINVAL, none), pos)
  else if whence = SEEK_CUR then
    if 0 ≤ off ∧ uaddOff pos off < pos then ((.EOVERFLOW, none), pos)
    else if off < 0 ∧ pos < (-off).toNat then ((.EOVERFLOW, none), pos)
    else
      ((.EOK, some (if uaddOff pos off > OFF64_MAX then OFF64_MAX else uaddOff pos off)),
        uaddOff pos off)
  else if whence = SEEK_END then
    if 0 ≤ off ∧ uaddOff size off < size then ((.EOVERFLOW, none), pos)
    else if off < 0 ∧ size < (-off).toNat then ((.EOVERFLOW, none), pos)
    else
      ((.EOK, some (if uaddOff size off > OFF64_MAX then OFF64_MAX else uaddOff size off)),
        uaddOff size off)
  else ((.EINVAL, none), pos)

/-- C5: seek round-trip.  For every `k ≥ 0` (an `off64_t`, hence `k < 2^63`)
and every descriptor, `SEEK_SET(k)` succeeds and a following `SEEK_CUR(0)`
succeeds with reply `min(k, OFF64_MAX)`. -/
theorem seek_set_cur_roundtrip (pos0 size : Nat) (k : Int)
    (hk0 : 0 ≤ k) (hk1 : k < 2 ^ 63) :
    ((vfs_seek pos0 size k SEEK_SET).1).1 = Errno.EOK ∧
    (vfs_seek (vfs_seek pos0 size k SEEK_SET).2 size 0 SEEK_CUR).1 =
      (Errno.EOK, some (min k.toNat OFF64_MAX)) := by
  have hset : vfs_seek pos0 size k SEEK_SET = ((.EOK, some k.toNat), k.toNat) := by
    unfold vfs_seek
    rw [if_pos rfl, if_pos hk0]
  rw [hset]
  refine ⟨rfl, ?_⟩
  have hkn : k.toNat < 2 ^ 63 := by omega
  have hu : uaddOff k.toNat 0 = k.toNat := by
    unfold uaddOff off64ToU U64
    norm_num
    omega
  show (vfs_seek k.toNat size 0 SEEK_CUR).1 = (Errno.EOK, some (min k.toNat OFF64_MAX))
  unfold vfs_seek
  rw [if_neg (by decide), if_pos rfl,
    if_neg (fun hc => absurd (hu ▸ hc.2) (by omega)),
    if_neg (fun hc => absurd hc.1 (by omega)), hu]
  have hle : ¬(k.toNat > OFF64_MAX) := by
    unfold OFF64_MAX
    omega
  rw [if_neg hle]
  have : min k.toNat OFF64_MAX = k.toNat := by
    apply min_eq_left
    unfold OFF64_MAX
    omega
  rw [this]

/-- C6: seek overflow detection.  `SEEK_CUR` replies `EOVERFLOW` exactly when
the unsigned 64-bit addition `pos + off` wraps (`off ≥ 0` and the sum is
below `pos`) or when `off < 0` and `pos < -off`; `SEEK_END` likewise with the
node size in place of the position; and in every `EOVERFLOW` case the
position is left unchanged. -/
theorem seek_overflow_iff (pos size : Nat) (off : Int)
    (hoff : -(2 ^ 63) ≤ off ∧ off < 2 ^ 63) :
    (((vfs_seek pos size off SEEK_CUR).1).1 = Errno.EOVERFLOW ↔
      ((0 ≤ off ∧ uaddOff pos off < pos) ∨ (off < 0 ∧ pos < (-off).toNat))) ∧
    (((vfs_seek pos size off SEEK_CUR).1).1 = Errno.EOVERFLOW →
      (vfs_seek pos size off SEEK_CUR).2 = pos) ∧
    (((vfs_seek pos size off SEEK_END).1).1 = Errno.EOVERFLOW ↔
      ((0 ≤ off ∧ uaddOff size off < size) ∨ (off < 0 ∧ size < (-off).toNat))) ∧
    (((vfs_seek pos size off SEEK_END).1).1 = Errno.EOVERFLOW →
      (vfs_seek pos size off SEEK_END).2 = pos) := by
  have hcur : ∀ p : Nat,
      (((vfs_seek p size off SEEK_CUR).1).1 = Errno.EOVERFLOW ↔
        ((0 ≤ off ∧ uaddOff p off < p) ∨ (off < 0 ∧ p < (-off).toNat))) ∧
      (((vfs_seek p size off SEEK_CUR).1).1 = Errno.EOVERFLOW →
        (vfs_seek p size off SEEK_CUR).2 = p) := by
    intro p
    unfold vfs_seek
    rw [if_neg (by decide), if_pos rfl]
    by_cases h1 : 0 ≤ off ∧ uaddOff p off < p
    · rw [if_pos h1]
      exact ⟨⟨fun _ => Or.inl h1, fun _ => rfl⟩, fun _ => rfl⟩
    · rw [if_neg h1]
      by_cases h2 : off < 0 ∧ p < (-off).toNat
      · rw [if_pos h2]
        exact ⟨⟨fun _ => Or.inr h2, fun _ => rfl⟩, fun _ => rfl⟩
      · rw [if_neg h2]
        refine ⟨⟨fun h => Errno.noConfusion h, fun h => ?_⟩, fun h => Errno.noConfusion h⟩
        rcases h with h | h
        · exact absurd h h1
        · exact absurd h h2
  have hend :
      (((vfs_seek pos size off SEEK_END).1).1 = Errno.EOVERFLOW ↔
        ((0 ≤ off ∧ uaddOff size off < size) ∨ (off < 0 ∧ size < (-off).toNat))) ∧
      (((vfs_seek pos size off SEEK_END).1).1 = Errno.EOVERFLOW →
        (vfs_seek pos size off SEEK_END).2 = pos) := by
    unfold vfs_seek
    rw [if_neg (by decide), if_neg (by decide), if_pos rfl]
    by_cases h1 : 0 ≤ off ∧ uaddOff size off < size
    · rw [if_pos h1]
      exact ⟨⟨fun _ => Or.inl h1, fun _ => rfl⟩, fun _ => rfl⟩
    · rw [if_neg h1]
      by_cases h2 : off < 0 ∧ size < (-off).toNat
      · rw [if_pos h2]
        exact ⟨⟨fun _ => Or.inr h2, fun _ => rfl⟩, fun _ => rfl⟩
      · rw [if_neg h2]
        refine ⟨⟨fun h => Errno.noConfusion h, fun h => ?_⟩, fun h => Errno.noConfusion h⟩
        rcases h with h | h
        · exact absurd h h1
        · exact absurd h h2
  exact ⟨(hcur pos).1, (hcur pos).2, hend.1, hend.2⟩

/-- Witness for C5 at `k = 42`. -/
theorem seek_set_cur_roundtrip_witness :
    ((vfs_seek 7 0 42 SEEK_SET).1).1 = Errno.EOK ∧
    (vfs_seek (vfs_seek 7 0 42 SEEK_SET).2 0 0 SEEK_CUR).1 =
      (Errno.EOK, some (min (Int.toNat 42) OFF64_MAX)) :=
  seek_set_cur_roundtrip 7 0 42 (by decide) (by decide)

/-- Witness for C6: the spec's scenario S5 — size 10, `SEEK_END` with
offset −20 replies `EOVERFLOW` and the position stays 0. -/
theorem seek_overflow_iff_witness :
    ((vfs_seek 0 10 (-20) SEEK_END).1).1 = Errno.EOVERFLOW ∧
    (vfs_seek 0 10 (-20) SEEK_END).2 = 0 := by
  have h := seek_overflow_iff 0 10 (-20) (by norm_num)
  have hov : ((vfs_seek 0 10 (-20) SEEK_END).1).1 = Errno.EOVERFLOW :=
    h.2.2.1.mpr (Or.inr (by norm_num))
  exact ⟨hov, h.2.2.2 hov⟩

/-! ## Bitmask helpers (C `&`, `|`, `~` on 32-bit ints) -/

/-- C bitwise complement `~x` on a 32-bit word. -/
def cnot32 (x : Nat) : Nat := (2 ^ 32 - 1) ^^^ x

theorem land_eq_zero_iff {x y : Nat} :
    x &&& y = 0 ↔ ∀ i, ¬(x.testBit i ∧ y.testBit i) := by
  constructor
  · intro h i hc
    have hbit : (x &&& y).testBit i = true := by
      rw [Nat.testBit_and, hc.1, hc.2]
      rfl
    rw [h, Nat.zero_testBit] at hbit
    cases hbit
  · intro h
    apply Nat.eq_of_testBit_eq
    intro i
    rw [Nat.testBit_and, Nat.zero_testBit]
    cases hx : x.testBit i with
    | false => rfl
    | true =>
      cases hy : y.testBit i with
      | false => rfl
      | true => exact absurd ⟨hx, hy⟩ (h i)

theorem land_lor_eq_zero_iff {x a b : Nat} :
    x &&& (a ||| b) = 0 ↔ x &&& a = 0 ∧ x &&& b = 0 := by
  simp only [land_eq_zero_iff, Nat.testBit_or]
  constructor
  · intro h
    refine ⟨fun i hc => h i ⟨hc.1, ?_⟩, fun i hc => h i ⟨hc.1, ?_⟩⟩
    · rw [hc.2]
      rfl
    · rw [hc.2]
      exact Bool.or_true _
  · rintro ⟨h1, h2⟩ i ⟨hx, hab⟩
    cases hta : a.testBit i with
    | true => exact h1 i ⟨hx, hta⟩
    | false =>
      cases htb : b.testBit i with
      | true => exact h2 i ⟨hx, htb⟩
      | false =>
        rw [hta, htb] at hab
        cases hab

/-- A 32-bit word with a bit outside a mask has a nonzero `& ~mask`. -/
theorem land_cnot32_ne {f m : Nat} (hf : f < 2 ^ 32)
    (h : ∃ i, f.testBit i ∧ m.testBit i = false) : f &&& cnot32 m ≠ 0 := by
  obtain ⟨i, hbit, hm⟩ := h
  intro hz
  have hi : i < 32 := by
    by_contra hge
    have hlt : f < 2 ^ i :=
      lt_of_lt_of_le hf (Nat.pow_le_pow_right (by omega) (by omega))
    rw [Nat.testBit_lt_two_pow hlt] at hbit
    cases hbit
  have hcb : (cnot32 m).testBit i = true := by
    unfold cnot32
    rw [Nat.testBit_xor, Nat.testBit_two_pow_sub_one, hm]
    simp [hi]
  exact land_eq_zero_iff.mp hz i ⟨hbit, hcb⟩

/-! ## Descriptors and open (`vfs_open2` in `vfs_ops.c`)

The `MODE_*` bits come from the libc headers, which are not in the
snapshot; modelled from the spec — only their distinctness matters. -/

def MODE_READ : Nat := 1
def MODE_WRITE : Nat := 2
def MODE_APPEND : Nat := 4

/-- The broker's in-memory node handle (`vfs_node_t`): the backend triplet,
the node type and the cached size. -/
structure VfsNode where
  triplet : Triplet
  ntype : VfsNodeType
  size : Nat
deriving DecidableEq, Repr

/-- An open-file descriptor record (`vfs_file_t`). -/
structure VfsFile where
  node : VfsNode
  permissions : Nat
  open_read : Bool
  open_write : Bool
  append : Bool
  pos : Nat
deriving DecidableEq, Repr

/-- The assignment of the open-mode bits performed by `vfs_open2` before its
remaining checks. -/
def openSetBits (file : VfsFile) (flags : Nat) : VfsFile :=
  { file with
    open_read := decide (flags &&& MODE_READ ≠ 0),
    open_write := decide (flags &&& (MODE_WRITE ||| MODE_APPEND) ≠ 0),
    append := decide (flags &&& MODE_APPEND ≠ 0) }

/-- `vfs_open2` from `vfs_ops.c`, after the descriptor has been found.
`openNodeRc` is the backend's reply to `VFS_OUT_OPEN_NODE`
(`vfs_open_node_remote`, whose source is not in the snapshot). -/
def vfs_open2 (openNodeRc : Errno) (file : VfsFile) (flags : Nat) : Errno × VfsFile :=
  if flags = 0 then (.EINVAL, file)
  else if flags &&& cnot32 file.permissions ≠ 0 then (.EPERM, file)
  else if ¬(openSetBits file flags).open_read = true ∧
      ¬(openSetBits file flags).open_write = true then
    (.EINVAL, openSetBits file flags)
  else if file.node.ntype = .directory ∧ (openSetBits file flags).open_write = true then
    (.EINVAL, { openSetBits file flags with open_read := false, open_write := false })
  else if openNodeRc ≠ .EOK then
    (openNodeRc, { openSetBits file flags with open_read := false, open_write := false })
  else (.EOK, openSetBits file flags)

/-- C4: `open(fd, mode)` validation.  With the descriptor's open bits still
false (as walk leaves them): a mode bit outside the permissions gives
`EPERM`; a mode requesting neither read nor write (and inside the
permissions, which are checked first) gives `EINVAL`; write requested on a
directory (mode inside the permissions) gives `EINVAL`; on every failure the
open bits remain false; only on success are the mode bits latched. -/
theorem open2_validation (openNodeRc : Errno) (file : VfsFile) (flags : Nat)
    (hf : flags < 2 ^ 32)
    (hro : file.open_read = false) (hwo : file.open_write = false) :
    ((∃ i, flags.testBit i ∧ file.permissions.testBit i = false) →
        (vfs_open2 openNodeRc file flags).1 = Errno.EPERM) ∧
    (flags &&& (MODE_READ ||| MODE_WRITE ||| MODE_APPEND) = 0 →
        flags &&& cnot32 file.permissions = 0 →
        (vfs_open2 openNodeRc file flags).1 = Errno.EINVAL) ∧
    (file.node.ntype = .directory → flags &&& (MODE_WRITE ||| MODE_APPEND) ≠ 0 →
        flags &&& cnot32 file.permissions = 0 →
        (vfs_open2 openNodeRc file flags).1 = Errno.EINVAL) ∧
    ((vfs_open2 openNodeRc file flags).1 ≠ Errno.EOK →
        (vfs_open2 openNodeRc file flags).2.open_read = false ∧
        (vfs_open2 openNodeRc file flags).2.open_write = false) ∧
    ((vfs_open2 openNodeRc file flags).1 = Errno.EOK →
        (vfs_open2 openNodeRc file flags).2.open_read =
          decide (flags &&& MODE_READ ≠ 0) ∧
        (vfs_open2 openNodeRc file flags).2.open_write =
          decide (flags &&& (MODE_WRITE ||| MODE_APPEND) ≠ 0) ∧
        (vfs_open2 openNodeRc file flags).2.append =
          decide (flags &&& MODE_APPEND ≠ 0)) := by
  unfold vfs_open2
  by_cases h0 : flags = 0
  · rw [if_pos h0]
    subst h0
    refine ⟨?_, fun _ _ => rfl, fun _ hw _ => absurd (Nat.zero_and _) hw,
      fun _ => ⟨hro, hwo⟩, fun h => Errno.noConfusion h⟩
    rintro ⟨i, hbit, -⟩
    rw [Nat.zero_testBit] at hbit
    cases hbit
  · rw [if_neg h0]
    by_cases hperm : flags &&& cnot32 file.permissions ≠ 0
    · rw [if_pos hperm]
      exact ⟨fun _ => rfl, fun _ hc => absurd hc hperm, fun _ _ hc => absurd hc hperm,
        fun _ => ⟨hro, hwo⟩, fun h => Errno.noConfusion h⟩
    · rw [if_neg hperm]
      have hperm0 : flags &&& cnot32 file.permissions = 0 := not_not.mp hperm
      refine ⟨fun hx => absurd hperm0 (land_cnot32_ne hf hx), ?_, ?_, ?_, ?_⟩
      · -- neither read nor write requested
        intro hrw _
        obtain ⟨hRW, hA⟩ := land_lor_eq_zero_iff.mp hrw
        obtain ⟨hR, hW⟩ := land_lor_eq_zero_iff.mp hRW
        have hWA : flags &&& (MODE_WRITE ||| MODE_APPEND) = 0 :=
          land_lor_eq_zero_iff.mpr ⟨hW, hA⟩
        rw [if_pos (by simp [openSetBits, hR, hWA])]
      · -- write requested on a directory
        intro hd hwa _
        have hwbit : (openSetBits file flags).open_write = true := by
          simp [openSetBits, hwa]
        rw [if_neg (fun hc => hc.2 hwbit), if_pos ⟨hd, hwbit⟩]
      · -- every failure leaves the open bits false
        by_cases h3 : ¬(openSetBits file flags).open_read = true ∧
            ¬(openSetBits file flags).open_write = true
        · rw [if_pos h3]
          intro _
          exact ⟨by simpa using h3.1, by simpa using h3.2⟩
        · rw [if_neg h3]
          by_cases h4 : file.node.ntype = .directory ∧
              (openSetBits file flags).open_write = true
          · rw [if_pos h4]
            intro _
            exact ⟨rfl, rfl⟩
          · rw [if_neg h4]
            by_cases h5 : openNodeRc ≠ .EOK
            · rw [if_pos h5]
              intro _
              exact ⟨rfl, rfl⟩
            · rw [if_neg h5]
              intro hne
              exact absurd rfl hne
      · -- success latches the mode bits
        by_cases h3 : ¬(openSetBits file flags).open_read = true ∧
            ¬(openSetBits file flags).open_write = true
        · rw [if_pos h3]
          intro h
          exact Errno.noConfusion h
        · rw [if_neg h3]
          by_cases h4 : file.node.ntype = .directory ∧
              (openSetBits file flags).open_write = true
          · rw [if_pos h4]
            intro h
            exact Errno.noConfusion h
          · rw [if_neg h4]
            by_cases h5 : openNodeRc ≠ .EOK
            · rw [if_pos h5]
              intro h
              exact absurd h h5
            · rw [if_neg h5]
              intro _
              exact ⟨rfl, rfl, rfl⟩

/-- A concrete descriptor used by witnesses: a regular file with default
walk permissions and unopened bits. -/
def file0 : VfsFile :=
  ⟨⟨tA, .regular, 0⟩, MODE_READ ||| MODE_WRITE ||| MODE_APPEND, false, false, false, 0⟩

/-- Witness for C4 at `flags = MODE_READ` on `file0`. -/
theorem open2_validation_witness :
    ((∃ i, Nat.testBit 1 i ∧ file0.permissions.testBit i = false) →
        (vfs_open2 Errno.EOK file0 1).1 = Errno.EPERM) ∧
    ((1 : Nat) &&& (MODE_READ ||| MODE_WRITE ||| MODE_APPEND) = 0 →
        (1 : Nat) &&& cnot32 file0.permissions = 0 →
        (vfs_open2 Errno.EOK file0 1).1 = Errno.EINVAL) ∧
    (file0.node.ntype = .directory → (1 : Nat) &&& (MODE_WRITE ||| MODE_APPEND) ≠ 0 →
        (1 : Nat) &&& cnot32 file0.permissions = 0 →
        (vfs_open2 Errno.EOK file0 1).1 = Errno.EINVAL) ∧
    ((vfs_open2 Errno.EOK file0 1).1 ≠ Errno.EOK →
        (vfs_open2 Errno.EOK file0 1).2.open_read = false ∧
        (vfs_open2 Errno.EOK file0 1).2.open_write = false) ∧
    ((vfs_open2 Errno.EOK file0 1).1 = Errno.EOK →
        (vfs_open2 Errno.EOK file0 1).2.open_read = decide ((1 : Nat) &&& MODE_READ ≠ 0) ∧
        (vfs_open2 Errno.EOK file0 1).2.open_write =
          decide ((1 : Nat) &&& (MODE_WRITE ||| MODE_APPEND) ≠ 0) ∧
        (vfs_open2 Errno.EOK file0 1).2.append = decide ((1 : Nat) &&& MODE_APPEND ≠ 0)) :=
  open2_validation Errno.EOK file0 1 (by decide) rfl rfl

theorem land_cnot32_ne_iff {f m : Nat} (hf : f < 2 ^ 32) :
    f &&& cnot32 m ≠ 0 ↔ ∃ i, f.testBit i ∧ m.testBit i = false := by
  constructor
  · intro h
    by_contra hno
    push_neg at hno
    apply h
    apply land_eq_zero_iff.mpr
    rintro i ⟨hfi, hci⟩
    have hi : i < 32 := by
      by_contra hge
      have hlt : f < 2 ^ i :=
        lt_of_lt_of_le hf (Nat.pow_le_pow_right (by omega) (by omega))
      rw [Nat.testBit_lt_two_pow hlt] at hfi
      cases hfi
    have hmi : m.testBit i = true := by
      rcases Bool.eq_false_or_eq_true (m.testBit i) with hh | hh
      · exact hh
      · exact absurd hh (hno i hfi)
    unfold cnot32 at hci
    rw [Nat.testBit_xor, Nat.testBit_two_pow_sub_one, hmi] at hci
    simp [hi] at hci
  · exact land_cnot32_ne hf

/-! ## Walk (`vfs_walk` in `vfs_ops.c`)

The `WALK_*` flag bits come from `<ipc/vfs.h>`, which is not in the
snapshot; modelled from the spec — only their distinctness matters. -/

def WALK_MAY_CREATE : Nat := 1
def WALK_MUST_CREATE : Nat := 2
def WALK_REGULAR : Nat := 4
def WALK_DIRECTORY : Nat := 8
def WALK_ALL_FLAGS : Nat :=
  WALK_MAY_CREATE ||| WALK_MUST_CREATE ||| WALK_REGULAR ||| WALK_DIRECTORY

/-- `walk_flags_valid` from `vfs_ops.c`. -/
def walk_flags_valid (flags : Nat) : Bool :=
  if flags &&& cnot32 WALK_ALL_FLAGS ≠ 0 then false
  else if flags &&& WALK_MAY_CREATE ≠ 0 ∧ flags &&& WALK_MUST_CREATE ≠ 0 then false
  else if flags &&& WALK_REGULAR ≠ 0 ∧ flags &&& WALK_DIRECTORY ≠ 0 then false
  else if (flags &&& WALK_MAY_CREATE ≠ 0 ∨ flags &&& WALK_MUST_CREATE ≠ 0) ∧
      ¬flags &&& WALK_DIRECTORY ≠ 0 ∧ ¬flags &&& WALK_REGULAR ≠ 0 then false
  else true

/-- `walk_lookup_flags` from `vfs_ops.c`. -/
def walk_lookup_flags (flags : Nat) : Nat :=
  (if flags &&& WALK_MAY_CREATE ≠ 0 ∨ flags &&& WALK_MUST_CREATE ≠ 0 then L_CREATE else 0) |||
  (if flags &&& WALK_MUST_CREATE ≠ 0 then L_EXCLUSIVE else 0) |||
  (if flags &&& WALK_REGULAR ≠ 0 then L_FILE else 0) |||
  (if flags &&& WALK_DIRECTORY ≠ 0 then L_DIRECTORY else 0)

/-- The per-client descriptor table (`vfs_file.c` is not in the snapshot;
modelled from spec 4.5 as an array indexed by small integers). -/
abbrev FdTable := List (Nat × VfsFile)

def fdLookup (fds : FdTable) (fd : Nat) : Option VfsFile :=
  match fds.find? (fun e => decide (e.1 = fd)) with
  | some e => some e.2
  | none => none

/-- Modelled from the spec: `vfs_file_get` — a negative descriptor or an
unbound slot yields no file. -/
def vfs_file_get (fds : FdTable) (fd : Int) : Option VfsFile :=
  if fd < 0 then none else fdLookup fds fd.toNat

/-- Modelled from the spec: `vfs_fd_alloc` returns the lowest free slot. -/
def vfs_fd_alloc (fds : FdTable) : Nat :=
  ((List.range (fds.length + 1)).find? (fun n => decide (fdLookup fds n = none))).getD 0

/-- The result of `vfs_walk`: the reply, the updated namespace and
descriptor table, and the flag words of the resolver calls issued (used to
express "`EINVAL` before any lookup"). -/
structure WalkOut where
  rc : Errno
  fd : Option Nat
  ns : List Edge
  fds : FdTable
  lookups : List Nat
deriving DecidableEq, Repr

/-- `vfs_walk` from `vfs_ops.c`.  `root` is the root node triplet,
`parentfd` the client-supplied parent descriptor (−1 selects the root).
Node interning (`vfs_node_get`) is treated in the node-cache model. -/
def vfs_walk (bk : Backend) (ns : List Edge) (fds : FdTable) (root : Triplet)
    (parentfd : Int) (flags : Nat) (path : List Char) : WalkOut :=
  if ¬walk_flags_valid flags = true then ⟨.EINVAL, none, ns, fds, []⟩
  else if parentfd ≠ -1 ∧ vfs_file_get fds parentfd = none then
    ⟨.EBADF, none, ns, fds, []⟩
  else
    let parentNode := match (if parentfd ≠ -1 then vfs_file_get fds parentfd else none) with
      | some pf => pf.node.triplet
      | none => root
    match vfs_lookup_internal bk ns parentNode (comps path) (walk_lookup_flags flags) with
    | .error rc => ⟨rc, none, ns, fds, [walk_lookup_flags flags]⟩
    | .ok (t, ns') =>
      let fd := vfs_fd_alloc fds
      let perms := match (if parentfd ≠ -1 then vfs_file_get fds parentfd else none) with
        | some pf => pf.permissions
        | none => MODE_READ ||| MODE_WRITE ||| MODE_APPEND
      ⟨.EOK, some fd, ns',
        (fd, ⟨⟨t, bk.typeOf t, bk.sizeOf t⟩, perms, false, false, false, 0⟩) :: fds,
        [walk_lookup_flags flags]⟩

/-- The invalid flag combinations named by the claim: bits outside the
defined set, both create flags, both type flags, or a create flag without a
type flag. -/
def walkBadFlags (flags : Nat) : Prop :=
  (∃ i, flags.testBit i ∧ WALK_ALL_FLAGS.testBit i = false) ∨
  (flags &&& WALK_MAY_CREATE ≠ 0 ∧ flags &&& WALK_MUST_CREATE ≠ 0) ∨
  (flags &&& WALK_DIRECTORY ≠ 0 ∧ flags &&& WALK_REGULAR ≠ 0) ∨
  ((flags &&& WALK_MAY_CREATE ≠ 0 ∨ flags &&& WALK_MUST_CREATE ≠ 0) ∧
    flags &&& WALK_DIRECTORY = 0 ∧ flags &&& WALK_REGULAR = 0)

theorem walk_flags_valid_iff {flags : Nat} (hf : flags < 2 ^ 32) :
    walk_flags_valid flags = false ↔ walkBadFlags flags := by
  unfold walk_flags_valid walkBadFlags
  by_cases h1 : flags &&& cnot32 WALK_ALL_FLAGS ≠ 0
  · rw [if_pos h1]
    exact ⟨fun _ => Or.inl ((land_cnot32_ne_iff hf).mp h1), fun _ => rfl⟩
  · rw [if_neg h1]
    by_cases h2 : flags &&& WALK_MAY_CREATE ≠ 0 ∧ flags &&& WALK_MUST_CREATE ≠ 0
    · rw [if_pos h2]
      exact ⟨fun _ => Or.inr (Or.inl h2), fun _ => rfl⟩
    · rw [if_neg h2]
      by_cases h3 : flags &&& WALK_REGULAR ≠ 0 ∧ flags &&& WALK_DIRECTORY ≠ 0
      · rw [if_pos h3]
        exact ⟨fun _ => Or.inr (Or.inr (Or.inl ⟨h3.2, h3.1⟩)), fun _ => rfl⟩
      · rw [if_neg h3]
        by_cases h4 : (flags &&& WALK_MAY_CREATE ≠ 0 ∨ flags &&& WALK_MUST_CREATE ≠ 0) ∧
            ¬flags &&& WALK_DIRECTORY ≠ 0 ∧ ¬flags &&& WALK_REGULAR ≠ 0
        · rw [if_pos h4]
          exact ⟨fun _ => Or.inr (Or.inr (Or.inr
            ⟨h4.1, not_ne_iff.mp h4.2.1, not_ne_iff.mp h4.2.2⟩)), fun _ => rfl⟩
        · rw [if_neg h4]
          constructor
          · intro h
            exact Bool.noConfusion h
          · rintro (hb | hb | hb | hb)
            · exact absurd ((land_cnot32_ne_iff hf).mpr hb) h1
            · exact absurd hb h2
            · exact absurd ⟨hb.2, hb.1⟩ h3
            · exact absurd ⟨hb.1, not_ne_iff.mpr hb.2.1, not_ne_iff.mpr hb.2.2⟩ h4

/-- C3: `vfs_walk` flag validation.  An invalid flag word — bits outside the
defined set, both create flags, both type flags, or a create flag without a
type — is answered `EINVAL` before any resolver call (the lookup trace is
empty and the state untouched); any other flag word passes the
validation. -/
theorem walk_flags_einval (bk : Backend) (ns : List Edge) (fds : FdTable)
    (root : Triplet) (parentfd : Int) (flags : Nat) (path : List Char)
    (hf : flags < 2 ^ 32) :
    (walkBadFlags flags →
        vfs_walk bk ns fds root parentfd flags path = ⟨.EINVAL, none, ns, fds, []⟩) ∧
    (¬walkBadFlags flags → walk_flags_valid flags = true) := by
  constructor
  · intro hbad
    have hval : walk_flags_valid flags = false := (walk_flags_valid_iff hf).mpr hbad
    unfold vfs_walk
    rw [if_pos (by rw [hval]; exact fun h => Bool.noConfusion h)]
  · intro hgood
    rcases Bool.eq_false_or_eq_true (walk_flags_valid flags) with hh | hh
    · exact hh
    · exact absurd ((walk_flags_valid_iff hf).mp hh) hgood

/-- Witness for C3 at `flags = WALK_MAY_CREATE ||| WALK_MUST_CREATE`. -/
theorem walk_flags_einval_witness :
    vfs_walk (bkOf [rootT]) [] [] rootT (-1) 3 strA = ⟨.EINVAL, none, [], [], []⟩ :=
  (walk_flags_einval (bkOf [rootT]) [] [] rootT (-1) 3 strA (by decide)).1
    (Or.inr (Or.inl ⟨by decide, by decide⟩))

/-! ## Read/write (`vfs_rdwr` in `vfs_ops.c`) -/

/-- The capability flags a backend advertises (`vfs_info_t`). -/
structure FsInfo where
  concurrent_read_write : Bool
  write_retains_size : Bool
deriving DecidableEq, Repr

/-- The result of `vfs_rdwr`: the reply, the updated descriptor, and the
validity of the C `assert(read)` in the directory branch. -/
structure RdwrOut where
  rc : Errno
  bytes : Nat
  file : Option VfsFile
  assertOk : Bool
deriving DecidableEq, Repr

/-- `vfs_rdwr` from `vfs_ops.c`.  The backend's reply is summarised by
`(brc, bbytes, newSize)`; `fsinfo` is `fs_handle_to_info(...)`.  The
`assert(read)` of the directory branch is modelled by `assertOk`. -/
def vfs_rdwr (fsinfo : FsInfo) (brc : Errno) (bbytes newSize : Nat)
    (file? : Option VfsFile) (read : Bool) : RdwrOut :=
  match file? with
  | none => ⟨.ENOENT, 0, none, true⟩
  | some file =>
    if (read = true ∧ file.open_read = false) ∨
        (read = false ∧ file.open_write = false) then
      ⟨.EINVAL, 0, some file, true⟩
    else
      let assertOk := if file.node.ntype = .directory then read else true
      let rlock := read = true ∨
        (fsinfo.concurrent_read_write = true ∧ fsinfo.write_retains_size = true)
      let f1 := if read = false ∧ file.append = true then
        { file with pos := file.node.size } else file
      let f2 := if ¬rlock ∧ brc = .EOK then
        { f1 with node := { f1.node with size := newSize } } else f1
      let f3 := if brc = .EOK then { f2 with pos := (f2.pos + bbytes) % U64 } else f2
      ⟨brc, bbytes, some f3, assertOk⟩

/-- The state invariant justifying `assert(read)`: a descriptor of a
directory node never has its write bit set. -/
def GoodFile (f : VfsFile) : Prop := f.node.ntype = .directory → f.open_write = false

/-- The descriptor table written by `vfs_walk` is either unchanged or
extends the input by one freshly initialised descriptor. -/
theorem vfs_walk_fds (bk : Backend) (ns : List Edge) (fds : FdTable) (root : Triplet)
    (parentfd : Int) (flags : Nat) (path : List Char) :
    (vfs_walk bk ns fds root parentfd flags path).fds = fds ∨
    ∃ fd t perms,
      (vfs_walk bk ns fds root parentfd flags path).fds =
        (fd, ⟨⟨t, bk.typeOf t, bk.sizeOf t⟩, perms, false, false, false, 0⟩) :: fds := by
  unfold vfs_walk
  split
  · left
    rfl
  · split
    · left
      rfl
    · split
      · dsimp only
        split
        · left
          rfl
        · right
          exact ⟨_, _, _, rfl⟩
      · dsimp only
        split
        · left
          rfl
        · right
          exact ⟨_, _, _, rfl⟩

/-- C9: validity of the `assert(read)` in the directory branch of
`vfs_rdwr`.  Descriptors created by `vfs_walk` have both open bits false
(hence satisfy `GoodFile`); `vfs_open2` preserves `GoodFile` (it rejects
write-on-directory and resets the bits on every failure); and for any
`GoodFile` descriptor, a write request on a directory node is refused by the
`open_write` check before the directory branch, so the assertion holds. -/
theorem rdwr_assert_valid (bk : Backend) (ns : List Edge) (fds : FdTable) (root : Triplet)
    (parentfd : Int) (flags : Nat) (path : List Char)
    (r : Errno) (g : VfsFile) (oflags : Nat)
    (fsinfo : FsInfo) (brc : Errno) (bbytes newSize : Nat) (f : VfsFile) (read : Bool)
    (hg : GoodFile g) (hf : GoodFile f) :
    (∀ fd ff, (fd, ff) ∈ (vfs_walk bk ns fds root parentfd flags path).fds →
        (fd, ff) ∉ fds → ff.open_read = false ∧ ff.open_write = false) ∧
    GoodFile (vfs_open2 r g oflags).2 ∧
    (vfs_rdwr fsinfo brc bbytes newSize (some f) read).assertOk = true := by
  refine ⟨?_, ?_, ?_⟩
  · intro fd ff hmem hnot
    rcases vfs_walk_fds bk ns fds root parentfd flags path with he | ⟨fd', t, perms, he⟩
    · rw [he] at hmem
      exact absurd hmem hnot
    · rw [he] at hmem
      rcases List.mem_cons.mp hmem with h | h
      · have hff : ff = ⟨⟨t, bk.typeOf t, bk.sizeOf t⟩, perms, false, false, false, 0⟩ :=
          congrArg Prod.snd h
        rw [hff]
        exact ⟨rfl, rfl⟩
      · exact absurd h hnot
  · unfold vfs_open2
    by_cases h0 : oflags = 0
    · rw [if_pos h0]
      exact hg
    · rw [if_neg h0]
      by_cases hperm : oflags &&& cnot32 g.permissions ≠ 0
      · rw [if_pos hperm]
        exact hg
      · rw [if_neg hperm]
        by_cases h3 : ¬(openSetBits g oflags).open_read = true ∧
            ¬(openSetBits g oflags).open_write = true
        · rw [if_pos h3]
          intro _
          simpa using h3.2
        · rw [if_neg h3]
          by_cases h4 : g.node.ntype = .directory ∧ (openSetBits g oflags).open_write = true
          · rw [if_pos h4]
            intro _
            rfl
          · rw [if_neg h4]
            by_cases h5 : r ≠ .EOK
            · rw [if_pos h5]
              intro _
              rfl
            · rw [if_neg h5]
              intro hd
              rcases Bool.eq_false_or_eq_true (openSetBits g oflags).open_write with hh | hh
              · exact absurd ⟨hd, hh⟩ h4
              · exact hh
  · by_cases href : (read = true ∧ f.open_read = false) ∨
        (read = false ∧ f.open_write = false)
    · simp only [vfs_rdwr]
      rw [if_pos href]
    · simp only [vfs_rdwr]
      rw [if_neg href]
      show (if f.node.ntype = .directory then read else true) = true
      by_cases hd : f.node.ntype = .directory
      · rw [if_pos hd]
        cases hr : read with
        | true => rfl
        | false => exact absurd (Or.inr ⟨hr, hf hd⟩) href
      · rw [if_neg hd]

/-- Witness for C9 on a concrete descriptor. -/
theorem rdwr_assert_valid_witness :
    GoodFile (vfs_open2 Errno.EOK file0 1).2 ∧
    (vfs_rdwr ⟨false, false⟩ Errno.EOK 0 0 (some file0) false).assertOk = true :=
  ⟨(rdwr_assert_valid (bkOf [rootT]) [] [] rootT (-1) 0 strA Errno.EOK file0 1
      ⟨false, false⟩ Errno.EOK 0 0 file0 false
      (fun h => VfsNodeType.noConfusion h) (fun h => VfsNodeType.noConfusion h)).2.1,
    (rdwr_assert_valid (bkOf [rootT]) [] [] rootT (-1) 0 strA Errno.EOK file0 1
      ⟨false, false⟩ Errno.EOK 0 0 file0 false
      (fun h => VfsNodeType.noConfusion h) (fun h => VfsNodeType.noConfusion h)).2.2⟩

/-! ## The node cache (`vfs_node.c` is not in the snapshot) -/

/-- The cached nodes with their reference counts. -/
abbrev NodeCache := List (Triplet × Nat)

/-- Backend requests issued by the broker (instrumentation). -/
inductive BMsg where
  | UNMOUNTED (svc : Nat)
  | UNMOUNT (svc idx : Nat)
  | DESTROY (t : Triplet)
deriving DecidableEq, Repr

/-- Modelled from the spec: `vfs_node_get` — interns by triplet; if present
increments the refcount, otherwise installs the node with one reference. -/
def vfs_node_get (nodes : NodeCache) (t : Triplet) : NodeCache :=
  if (nodes.find? (fun e => decide (e.1 = t))).isSome then
    nodes.map (fun e => if e.1 = t then (e.1, e.2 + 1) else e)
  else (t, 1) :: nodes

/-- Modelled from the spec: `vfs_node_put` — decrements the refcount; at
zero removes the node from the cache and sends `DESTROY` (the `Bool`). -/
def vfs_node_put (nodes : NodeCache) (t : Triplet) : NodeCache × Bool :=
  match nodes.find? (fun e => decide (e.1 = t)) with
  | none => (nodes, false)
  | some e =>
    if e.2 ≤ 1 then (nodes.filter (fun e2 => decide (¬e2.1 = t)), true)
    else (nodes.map (fun e2 => if e2.1 = t then (e2.1, e2.2 - 1) else e2), false)

/-- Modelled from the spec: `vfs_node_forget` — removes the node without
notifying the backend. -/
def vfs_node_forget (nodes : NodeCache) (t : Triplet) : NodeCache :=
  nodes.filter (fun e => decide (¬e.1 = t))

/-- Modelled from the spec: `vfs_nodes_refcount_sum_get` — sums the
refcounts of the cached nodes of one mounted file system. -/
def refcount_sum (nodes : NodeCache) (fs svc : Nat) : Nat :=
  ((nodes.filter (fun e => decide (e.1.fs_handle = fs ∧ e.1.service_id = svc))).map
    (fun e => e.2)).foldr (fun a b => a + b) 0

theorem node_inc_dec_id (nodes : NodeCache) (t : Triplet) :
    (nodes.map (fun e => if e.1 = t then (e.1, e.2 + 1) else e)).map
      (fun e2 => if e2.1 = t then (e2.1, e2.2 - 1) else e2) = nodes := by
  rw [List.map_map]
  conv_rhs => rw [← List.map_id nodes]
  apply List.map_congr_left
  intro a _
  by_cases ha : a.1 = t
  · subst ha
    simp
  · simp [ha]

theorem find?_inc_map {nodes : NodeCache} {t : Triplet} {e : Triplet × Nat}
    (h : nodes.find? (fun x => decide (x.1 = t)) = some e) :
    (nodes.map (fun x => if x.1 = t then (x.1, x.2 + 1) else x)).find?
      (fun x => decide (x.1 = t)) = some (e.1, e.2 + 1) := by
  induction nodes with
  | nil => cases h
  | cons a as ih =>
    rw [List.map_cons]
    by_cases ha : a.1 = t
    · rw [List.find?_cons_of_pos _ (by simpa [ha] using rfl)] at h
      cases h
      rw [if_pos ha]
      rw [List.find?_cons_of_pos _ (by simpa using ha)]
    · rw [List.find?_cons_of_neg _ (by simpa using ha)] at h
      rw [if_neg ha]
      rw [List.find?_cons_of_neg _ (by simpa using ha)]
      exact ih h

/-- A `vfs_node_get` immediately followed by `vfs_node_put` leaves a cache
whose refcounts are all positive exactly as it was, and no `DESTROY` is
issued. -/
theorem node_get_put_cancel {nodes : NodeCache} {t : Triplet} {c : Nat}
    (hmem : (t, c) ∈ nodes) (hpos : ∀ e ∈ nodes, 1 ≤ e.2) :
    vfs_node_put (vfs_node_get nodes t) t = (nodes, false) := by
  have hfind : (nodes.find? (fun e => decide (e.1 = t))).isSome = true := by
    cases hf : nodes.find? (fun e => decide (e.1 = t)) with
    | some e => rfl
    | none =>
      have := List.find?_eq_none.mp hf (t, c) hmem
      simp at this
  obtain ⟨e0, he0⟩ := Option.isSome_iff_exists.mp hfind
  have he0mem : e0 ∈ nodes := List.mem_of_find?_eq_some he0
  have he0pos : 1 ≤ e0.2 := hpos e0 he0mem
  unfold vfs_node_get
  rw [if_pos hfind]
  unfold vfs_node_put
  rw [find?_inc_map he0]
  dsimp only
  rw [if_neg (by omega : ¬e0.2 + 1 ≤ 1)]
  rw [node_inc_dec_id]

/-! ## Unmount (`vfs_unmount` in `vfs_ops.c`) -/

/-- An entry of the broker's mtab list; only the mount-point path matters to
the unmount path. -/
structure MtabEnt where
  mp : List Char
deriving DecidableEq, Repr

/-- Removal of the first mtab entry whose mount point equals `mp`
(the `list_foreach`/`break` loop of `vfs_unmount`). -/
def mtabRemove (mtab : List MtabEnt) (mp : List Char) : List MtabEnt :=
  match mtab with
  | [] => []
  | e :: es => if e.mp = mp then es else e :: mtabRemove es mp

structure UnmountOut where
  rc : Errno
  ns : List Edge
  nodes : NodeCache
  root : Option Triplet
  mtab : List MtabEnt
  msgs : List BMsg
deriving DecidableEq, Repr

/-- `vfs_unmount` from `vfs_ops.c`, after the mount-point path has been
received.  `unmountedRc`/`unmountRc` are the backend replies to
`VFS_OUT_UNMOUNTED`/`VFS_OUT_UNMOUNT`; `msgs` records the requests actually
sent.  A `none` root is answered `ENOENT` (the resolver has nothing to walk
from). -/
def vfs_unmount (bk : Backend) (ns : List Edge) (nodes : NodeCache)
    (root : Option Triplet) (mtab : List MtabEnt) (mp : List Char)
    (unmountedRc unmountRc : Errno) : UnmountOut :=
  match root with
  | none => ⟨.ENOENT, ns, nodes, root, mtab, []⟩
  | some r =>
    match vfs_lookup_internal bk ns r (comps mp) 0 with
    | .error e => ⟨e, ns, nodes, root, mtab, []⟩
    | .ok (mrt, _) =>
      let nodes1 := vfs_node_get nodes mrt
      if refcount_sum nodes1 mrt.fs_handle mrt.service_id ≠ 2 then
        let p := vfs_node_put nodes1 mrt
        ⟨.EBUSY, ns, p.1, root, mtab, if p.2 then [.DESTROY mrt] else []⟩
      else if mp = ['/'] then
        if unmountedRc ≠ .EOK then
          let p := vfs_node_put nodes1 mrt
          ⟨unmountedRc, ns, p.1, root, mtab,
            .UNMOUNTED mrt.service_id :: (if p.2 then [.DESTROY mrt] else [])⟩
        else
          ⟨.EOK, ns, vfs_node_forget nodes1 mrt, none,
            mtabRemove mtab mp, [.UNMOUNTED mrt.service_id]⟩
      else
        match vfs_lookup_internal bk ns r (comps mp) L_MP with
        | .error e =>
          let p := vfs_node_put nodes1 mrt
          ⟨e, ns, p.1, root, mtab, if p.2 then [.DESTROY mrt] else []⟩
        | .ok (mpt, _) =>
          let nodes2 := vfs_node_get nodes1 mpt
          if unmountRc ≠ .EOK then
            let p1 := vfs_node_put nodes2 mpt
            let p2 := vfs_node_put p1.1 mrt
            ⟨unmountRc, ns, p2.1, root, mtab,
              .UNMOUNT mpt.service_id mpt.index ::
                ((if p1.2 then [.DESTROY mpt] else []) ++
                  (if p2.2 then [.DESTROY mrt] else []))⟩
          else
            let p1 := vfs_node_put nodes2 mpt
            let p2 := vfs_node_put p1.1 mpt
            ⟨.EOK, ns, vfs_node_forget p2.1 mrt, root,
              mtabRemove mtab mp,
              .UNMOUNT mpt.service_id mpt.index ::
                ((if p1.2 then [.DESTROY mpt] else []) ++
                  (if p2.2 then [.DESTROY mpt] else []))⟩

/-- C7: busy unmount.  If the summed reference count of the mounted file
system — including the mount reference and the reference just taken by the
unmount check itself — exceeds 2, `vfs_unmount` answers `EBUSY`, sends no
`UNMOUNT`/`UNMOUNTED` (nor any other backend request), and leaves the
namespace, the node cache, the root and the mount table exactly as they
were. -/
theorem unmount_busy (bk : Backend) (ns : List Edge) (nodes : NodeCache)
    (r : Triplet) (mtab : List MtabEnt) (mp : List Char)
    (unmountedRc unmountRc : Errno) (mrt : Triplet) (c : Nat)
    (hlk : vfs_lookup_internal bk ns r (comps mp) 0 = .ok (mrt, ns))
    (hmem : (mrt, c) ∈ nodes)
    (hpos : ∀ e ∈ nodes, 1 ≤ e.2)
    (hsum : 2 < refcount_sum (vfs_node_get nodes mrt) mrt.fs_handle mrt.service_id) :
    vfs_unmount bk ns nodes (some r) mtab mp unmountedRc unmountRc =
      ⟨.EBUSY, ns, nodes, some r, mtab, []⟩ := by
  have hne : refcount_sum (vfs_node_get nodes mrt) mrt.fs_handle mrt.service_id ≠ 2 := by
    omega
  unfold vfs_unmount
  dsimp only
  rw [hlk]
  dsimp only
  rw [if_pos hne, node_get_put_cancel hmem hpos]
  rfl

/-- Concrete values for the C7 witness: a mounted file system whose root
`tA` carries one extra reference beyond the mount reference. -/
def strM : List Char := ['/', 'm']

/-- Witness for C7: unmount of `/m` with `tA` cached at refcount 2 (mount
reference plus one open descriptor); after the check's own reference the sum
is 3 > 2. -/
theorem unmount_busy_witness :
    vfs_unmount (bkOf [rootT, tA]) [⟨rootT, "m", tA⟩] [(tA, 2)] (some rootT) []
        strM Errno.EOK Errno.EOK =
      ⟨Errno.EBUSY, [⟨rootT, "m", tA⟩], [(tA, 2)], some rootT, [], []⟩ :=
  unmount_busy (bkOf [rootT, tA]) [⟨rootT, "m", tA⟩] [(tA, 2)] rootT [] strM
    Errno.EOK Errno.EOK tA 2 rfl (by decide) (by decide) (by decide)

/-! ## Unlink (`vfs_unlink2` in `vfs_ops.c`) -/

structure UnlinkOut where
  rc : Errno
  ns : List Edge
  nodes : NodeCache
  msgs : List BMsg
  lookups : List Nat
deriving DecidableEq, Repr

/-- The parent-node selection of `vfs_unlink2`: a non-negative `parentfd`
names the parent through the descriptor table (absent descriptor: the
`ENOENT` exit, here `none`), otherwise the root is used. -/
def unlinkParentNode (fds : FdTable) (root : Triplet) (parentfd : Int) :
    Option Triplet :=
  if 0 ≤ parentfd then
    match vfs_file_get fds parentfd with
    | none => none
    | some parent => some parent.node.triplet
  else some root

/-- The tail of `vfs_unlink2` common to both the expect and no-expect
routes: the unlinking lookup (`lflag | L_UNLINK`) followed by the
get-then-put of the unlinked node. -/
def unlinkFinal (bk : Backend) (ns : List Edge) (nodes : NodeCache)
    (parent_node : Triplet) (path : List Char) (lflag : Nat)
    (tr : List Nat) : UnlinkOut :=
  match vfs_lookup_internal bk ns parent_node (comps path) (lflag ||| L_UNLINK) with
  | .error e => ⟨e, ns, nodes, [], tr ++ [lflag ||| L_UNLINK]⟩
  | .ok (t, ns2) =>
    let p := vfs_node_put (vfs_node_get nodes t) t
    ⟨.EOK, ns2, p.1, if p.2 then [.DESTROY t] else [], tr ++ [lflag ||| L_UNLINK]⟩

/-- `vfs_unlink2` from `vfs_ops.c`, after the path has been received.
`lookups` records the flag word of each resolver call issued. -/
def vfs_unlink2 (bk : Backend) (ns : List Edge) (nodes : NodeCache)
    (root : Triplet) (fds : FdTable) (parentfd expectfd : Int)
    (wflag : Nat) (path : List Char) : UnlinkOut :=
  let lflag := if wflag &&& WALK_DIRECTORY ≠ 0 then L_DIRECTORY else 0
  match unlinkParentNode fds root parentfd with
  | none => ⟨.ENOENT, ns, nodes, [], []⟩
  | some parent_node =>
    if 0 ≤ expectfd then
      match vfs_file_get fds expectfd with
      | none => ⟨.ENOENT, ns, nodes, [], []⟩
      | some expect =>
        match vfs_lookup_internal bk ns parent_node (comps path) lflag with
        | .error e => ⟨e, ns, nodes, [], [lflag]⟩
        | .ok (t1, _) =>
          if t1 ≠ expect.node.triplet then ⟨.ENOENT, ns, nodes, [], [lflag]⟩
          else unlinkFinal bk ns nodes parent_node path lflag [lflag]
    else unlinkFinal bk ns nodes parent_node path lflag []

/-- C8: unlink with an `expect_fd`.  The path is first resolved with a flag
word not containing `L_UNLINK`; on a triplet mismatch with the expected
descriptor's node the operation returns `ENOENT` having issued only that one
non-unlinking lookup and leaving the namespace and node cache untouched; only
on a match is the resolver run a second time, with `L_UNLINK` set. -/
theorem unlink2_expect (bk : Backend) (ns : List Edge) (nodes : NodeCache)
    (root : Triplet) (fds : FdTable) (parentfd expectfd : Int)
    (wflag lflag : Nat) (path : List Char) (ef : VfsFile) (pn t1 : Triplet)
    (ns1 : List Edge)
    (hexp : 0 ≤ expectfd)
    (hef : vfs_file_get fds expectfd = some ef)
    (hpn : unlinkParentNode fds root parentfd = some pn)
    (hlf : lflag = if wflag &&& WALK_DIRECTORY ≠ 0 then L_DIRECTORY else 0)
    (hlk : vfs_lookup_internal bk ns pn (comps path) lflag = .ok (t1, ns1)) :
    lflag &&& L_UNLINK = 0 ∧
    (t1 ≠ ef.node.triplet →
      vfs_unlink2 bk ns nodes root fds parentfd expectfd wflag path =
        ⟨.ENOENT, ns, nodes, [], [lflag]⟩) ∧
    (t1 = ef.node.triplet →
      (vfs_unlink2 bk ns nodes root fds parentfd expectfd wflag path).lookups =
        [lflag, lflag ||| L_UNLINK] ∧ (lflag ||| L_UNLINK) &&& L_UNLINK ≠ 0) := by
  have hlu : lflag &&& L_UNLINK = 0 := by
    rw [hlf]
    split <;> decide
  have hlu2 : (lflag ||| L_UNLINK) &&& L_UNLINK ≠ 0 := by
    rw [hlf]
    split <;> decide
  have hbody : vfs_unlink2 bk ns nodes root fds parentfd expectfd wflag path =
      (if t1 ≠ ef.node.triplet then ⟨.ENOENT, ns, nodes, [], [lflag]⟩
       else unlinkFinal bk ns nodes pn path lflag [lflag]) := by
    unfold vfs_unlink2
    rw [← hlf, hpn]
    dsimp only
    rw [if_pos hexp, hef]
    dsimp only
    rw [hlk]
  refine ⟨hlu, ?_, ?_⟩
  · intro hne
    rw [hbody, if_pos hne]
  · intro heq
    rw [hbody, if_neg (by simpa using heq)]
    refine ⟨?_, hlu2⟩
    unfold unlinkFinal
    cases vfs_lookup_internal bk ns pn (comps path) (lflag ||| L_UNLINK) with
    | error e => rfl
    | ok pr =>
      cases pr
      rfl

/-- Concrete values for the C8 witness: the expected descriptor's node is
`tB`, while `/a` resolves to `tA` — a mismatch. -/
def fileB : VfsFile :=
  ⟨⟨tB, .regular, 0⟩, MODE_READ ||| MODE_WRITE, false, false, false, 0⟩

/-- Witness for C8: unlink of `/a` with `expect_fd` 5 bound to a descriptor
on `tB`; wflag 0 gives lflag 0. -/
theorem unlink2_expect_witness :
    0 &&& L_UNLINK = 0 ∧
    (tA ≠ fileB.node.triplet →
      vfs_unlink2 (bkOf [rootT, tA]) [⟨rootT, "a", tA⟩] [] rootT [(5, fileB)]
          (-1) 5 0 strA =
        ⟨Errno.ENOENT, [⟨rootT, "a", tA⟩], [], [], [0]⟩) ∧
    (tA = fileB.node.triplet →
      (vfs_unlink2 (bkOf [rootT, tA]) [⟨rootT, "a", tA⟩] [] rootT [(5, fileB)]
          (-1) 5 0 strA).lookups = [0, 0 ||| L_UNLINK] ∧
        (0 ||| L_UNLINK) &&& L_UNLINK ≠ 0) :=
  unlink2_expect (bkOf [rootT, tA]) [⟨rootT, "a", tA⟩] [] rootT [(5, fileB)]
    (-1) 5 0 0 strA fileB rootT tA [⟨rootT, "a", tA⟩]
    (by decide) rfl rfl (by decide) rfl

/-! ## Dup (`vfs_dup` in `vfs_ops.c`) -/

/-- Modelled from the spec: `vfs_fd_free` — releases the descriptor slot;
`EBADF` if it was not allocated. -/
def vfs_fd_free (fds : FdTable) (fd : Int) : FdTable × Errno :=
  match vfs_file_get fds fd with
  | none => (fds, .EBADF)
  | some _ => (fds.filter (fun e => decide (¬(e.1 : Int) = fd)), .EOK)

/-- Modelled from the spec: `vfs_fd_assign` — binds the file to the given
slot. -/
def vfs_fd_assign (fds : FdTable) (file : VfsFile) (fd : Int) : FdTable × Errno :=
  if fd < 0 then (fds, .EBADF) else ((fd.toNat, file) :: fds, .EOK)

structure DupOut where
  rc : Errno
  reply : Option Int
  fds : FdTable
deriving DecidableEq, Repr

/-- `vfs_dup` from `vfs_ops.c`: the identity check precedes the descriptor
lookup; otherwise `newfd` is closed (ignoring the result) and the old file is
assigned to it. -/
def vfs_dup (fds : FdTable) (oldfd newfd : Int) : DupOut :=
  if oldfd = newfd then ⟨.EOK, some newfd, fds⟩
  else
    match vfs_file_get fds oldfd with
    | none => ⟨.EBADF, none, fds⟩
    | some oldfile =>
      let f1 := (vfs_fd_free fds newfd).1
      let a := vfs_fd_assign f1 oldfile newfd
      if a.2 ≠ .EOK then ⟨a.2, none, a.1⟩ else ⟨.EOK, some newfd, a.1⟩

/-- C10: `dup(fd, fd)` replies `EOK` carrying `fd` and leaves the descriptor
table untouched even when `fd` is not allocated, because the identity check
precedes the table lookup; with distinct descriptors an unallocated `oldfd`
is answered `EBADF`. -/
theorem dup_identity (fds : FdTable) (oldfd newfd fd2 : Int)
    (hne : oldfd ≠ newfd) (hold : vfs_file_get fds oldfd = none) :
    vfs_dup fds fd2 fd2 = ⟨.EOK, some fd2, fds⟩ ∧
    vfs_dup fds oldfd newfd = ⟨.EBADF, none, fds⟩ := by
  constructor
  · unfold vfs_dup
    rw [if_pos rfl]
  · unfold vfs_dup
    rw [if_neg hne, hold]

/-- Witness for C10: an empty descriptor table; `dup(7,7)` succeeds without a
lookup, `dup(0,1)` is `EBADF`. -/
theorem dup_identity_witness :
    vfs_dup [] 7 7 = ⟨Errno.EOK, some 7, []⟩ ∧
    vfs_dup [] 0 1 = ⟨Errno.EBADF, none, []⟩ :=
  dup_identity [] 0 1 7 (by decide) rfl

end Vfs
